import Mathlib

/-!
Verification of the argonaut `bind` package core: the `IntRange` interval
algebra, the `NaturalRangeFilter` built on top of it, the multi-value
codec and the shell-literal encoders.

Strings from the Go source are embedded as `List Char` (`Str`); Go `int`
is embedded as `Int` (no operation relevant here depends on 64-bit
wrap-around, and `strconv.Atoi`'s range check only shrinks the domain of
parsable inputs).  Fallible Go functions returning `(T, error)` are
embedded as `Except` with structured error values that carry the data
interpolated into the corresponding `fmt.Errorf` message.
-/

namespace Argonaut

abbrev Str := List Char

/-- ASCII whitespace, the fragment of `unicode.IsSpace` exercised here;
`strings.TrimSpace` trims these from both ends. -/
def isSpaceChar (c : Char) : Bool :=
  c = ' ' || c = '\t' || c = '\n' || c = '\r' || c = '\x0b' || c = '\x0c'

/-- `strings.TrimSpace` (restricted to ASCII whitespace). -/
def trimSpace (s : Str) : Str :=
  ((s.dropWhile isSpaceChar).reverse.dropWhile isSpaceChar).reverse

/-- ASCII decimal digit test. -/
def isDigitChar (c : Char) : Bool :=
  48 ≤ c.toNat && c.toNat ≤ 57

/-- Value of a big-endian (most significant first) digit-character list. -/
def digitsVal (l : Str) : Nat :=
  l.foldl (fun a c => a * 10 + (c.toNat - 48)) 0

/-- `strconv.Atoi`: an optional sign followed by at least one digit.
(The Go function additionally rejects values outside the 64-bit range;
that check only removes inputs and is not modelled.) -/
def goAtoi (l : Str) : Option Int :=
  match l with
  | [] => none
  | c :: rest =>
    if c = '-' then
      if rest ≠ [] ∧ rest.all isDigitChar then some (-(digitsVal rest : Int)) else none
    else if c = '+' then
      if rest ≠ [] ∧ rest.all isDigitChar then some ((digitsVal rest : Int)) else none
    else
      if (c :: rest).all isDigitChar then some ((digitsVal (c :: rest) : Int)) else none

/-- The character for a single decimal digit. -/
def digitToChar (d : Nat) : Char := Char.ofNat (48 + d)

/-- Decimal digit characters of a natural number, most significant first
(`strconv.Itoa` on naturals). -/
def natToChars (n : Nat) : Str :=
  if n = 0 then ['0'] else ((Nat.digits 10 n).reverse.map digitToChar)

/-- `strconv.Itoa` / `fmt.Sprintf "%d"` on a (signed) integer. -/
def intToChars (n : Int) : Str :=
  if n < 0 then '-' :: natToChars (-n).toNat else natToChars n.toNat

theorem digitToChar_toNat {d : Nat} (h : d < 10) : (digitToChar d).toNat = 48 + d := by
  interval_cases d <;> decide

theorem digitToChar_isDigit {d : Nat} (h : d < 10) : isDigitChar (digitToChar d) = true := by
  interval_cases d <;> decide

theorem natToChars_ne_nil (n : Nat) : natToChars n ≠ [] := by
  unfold natToChars
  split
  · simp
  · have hne : Nat.digits 10 n ≠ [] := Nat.digits_ne_nil_iff_ne_zero.mpr (by assumption)
    simp only [ne_eq, List.map_eq_nil_iff, List.reverse_eq_nil_iff]
    exact hne

theorem natToChars_all_digits (n : Nat) : (natToChars n).all isDigitChar = true := by
  unfold natToChars
  split
  · decide
  · rw [List.all_eq_true]
    intro c hc
    rcases List.mem_map.mp hc with ⟨d, hd, rfl⟩
    exact digitToChar_isDigit (Nat.digits_lt_base (by norm_num) (List.mem_reverse.mp hd))

theorem digitsVal_append_digit (l : Str) (c : Char) :
    digitsVal (l ++ [c]) = digitsVal l * 10 + (c.toNat - 48) := by
  simp [digitsVal, List.foldl_append]

theorem digitsVal_rev_map (ds : List Nat) (h : ∀ d ∈ ds, d < 10) :
    digitsVal (ds.reverse.map digitToChar) = Nat.ofDigits 10 ds := by
  induction ds with
  | nil => simp [digitsVal]
  | cons d ds ih =>
    have hd : d < 10 := h d (List.mem_cons_self d ds)
    rw [List.reverse_cons, List.map_append, List.map_cons, List.map_nil,
      digitsVal_append_digit, ih (fun x hx => h x (List.mem_cons_of_mem d hx)),
      Nat.ofDigits_cons, digitToChar_toNat hd]
    ring_nf
    omega

theorem digitsVal_natToChars (n : Nat) : digitsVal (natToChars n) = n := by
  unfold natToChars
  split
  · subst (by assumption : n = 0)
    decide
  · rw [digitsVal_rev_map _ (fun d hd => Nat.digits_lt_base (by norm_num) hd),
      Nat.ofDigits_digits]

theorem mem_natToChars_digit {n : Nat} {c : Char} (h : c ∈ natToChars n) :
    isDigitChar c = true :=
  List.all_eq_true.mp (natToChars_all_digits n) c h

theorem digit_not_space {c : Char} (h : isDigitChar c = true) : isSpaceChar c = false := by
  simp only [isDigitChar, Bool.and_eq_true, decide_eq_true_eq] at h
  simp only [isSpaceChar, Bool.or_eq_false_iff, decide_eq_false_iff_not]
  refine ⟨⟨⟨⟨⟨?_, ?_⟩, ?_⟩, ?_⟩, ?_⟩, ?_⟩ <;>
    · intro hc
      subst hc
      revert h
      decide

theorem digit_ne {c d : Char} (h : isDigitChar c = true) (hd : isDigitChar d = false) :
    c ≠ d := by
  intro hcd
  subst hcd
  rw [h] at hd
  exact Bool.true_eq_false.mp hd

theorem dropWhile_eq_self_of_none {p : Char → Bool} {l : Str}
    (h : ∀ c ∈ l, p c = false) : l.dropWhile p = l := by
  cases l with
  | nil => rfl
  | cons c cs => simp [List.dropWhile_cons, h c (List.mem_cons_self c cs)]

theorem trimSpace_eq_self {l : Str} (h : ∀ c ∈ l, isSpaceChar c = false) :
    trimSpace l = l := by
  unfold trimSpace
  rw [dropWhile_eq_self_of_none h,
    dropWhile_eq_self_of_none (fun c hc => h c (List.mem_reverse.mp hc)), List.reverse_reverse]

theorem mem_intToChars {n : Int} {c : Char} (h : c ∈ intToChars n) :
    c = '-' ∨ isDigitChar c = true := by
  unfold intToChars at h
  split at h
  · rcases List.mem_cons.mp h with h | h
    · exact Or.inl h
    · exact Or.inr (mem_natToChars_digit h)
  · exact Or.inr (mem_natToChars_digit h)

theorem trimSpace_intToChars (n : Int) : trimSpace (intToChars n) = intToChars n := by
  apply trimSpace_eq_self
  intro c hc
  rcases mem_intToChars hc with rfl | h
  · decide
  · exact digit_not_space h

theorem goAtoi_natToChars (n : Nat) : goAtoi (natToChars n) = some ((n : Int)) := by
  cases h : natToChars n with
  | nil => exact absurd h (natToChars_ne_nil n)
  | cons c rest =>
    have hall : (c :: rest).all isDigitChar = true := h ▸ natToChars_all_digits n
    have hc : isDigitChar c = true :=
      (List.all_eq_true.mp hall) c (List.mem_cons_self c rest)
    have hval : digitsVal (c :: rest) = n := h ▸ digitsVal_natToChars n
    simp only [goAtoi]
    rw [if_neg (digit_ne hc (by decide : isDigitChar '-' = false)),
      if_neg (digit_ne hc (by decide : isDigitChar '+' = false)),
      if_pos hall, hval]

theorem goAtoi_intToChars (n : Int) : goAtoi (intToChars n) = some n := by
  unfold intToChars
  split
  · rename_i hneg
    have hne : natToChars (-n).toNat ≠ [] := natToChars_ne_nil _
    have hall : (natToChars (-n).toNat).all isDigitChar = true := natToChars_all_digits _
    simp only [goAtoi, if_true]
    rw [if_pos ⟨hne, hall⟩, digitsVal_natToChars]
    congr 1
    omega
  · rw [goAtoi_natToChars]
    congr 1
    omega

/-- `IntRange` from the Go source: a single integer interval with
independently toggleable inclusive/exclusive and bounded/unbounded ends. -/
structure IntRange where
  Min : Int
  MinInclude : Bool
  Max : Int
  MaxInclude : Bool
  MinUnbounded : Bool
  MaxUnbounded : Bool
deriving DecidableEq, Repr

def NewUnboundedIntRange : IntRange :=
  ⟨0, false, 0, false, true, true⟩

def NewSingleValueIntRange (n : Int) : IntRange :=
  ⟨n, true, n, true, false, false⟩

def NewGreaterThanIntRange (n : Int) : IntRange :=
  ⟨n, false, 0, false, false, true⟩

def NewGreaterOrEqualThanIntRange (n : Int) : IntRange :=
  ⟨n, true, 0, false, false, true⟩

def NewLessThanIntRange (n : Int) : IntRange :=
  ⟨0, false, n, false, true, false⟩

def NewLessOrEqualThanIntRange (n : Int) : IntRange :=
  ⟨0, false, n, true, true, false⟩

def NewInclusiveIntRange (min max : Int) : IntRange :=
  ⟨min, true, max, true, false, false⟩

/-- `IntRange.IsValid`: non-empty, semantically valid interval. -/
def IntRange.IsValid (r : IntRange) : Bool :=
  if r.MinUnbounded && r.MinInclude then false
  else if r.MaxUnbounded && r.MaxInclude then false
  else if !r.MinUnbounded && !r.MaxUnbounded then
    if r.Min > r.Max then false
    else if r.Min = r.Max then r.MinInclude && r.MaxInclude
    else if r.Max - r.Min = 1 then
      if !r.MinInclude && !r.MaxInclude then false else true
    else true
  else true

/-- `IntRange.Contains`. -/
def IntRange.Contains (r : IntRange) (n : Int) : Bool :=
  if !r.IsValid then false
  else if !r.MinUnbounded && (if r.MinInclude then n < r.Min else n ≤ r.Min) then false
  else if !r.MaxUnbounded && (if r.MaxInclude then n > r.Max else n ≥ r.Max) then false
  else true

/-- `IntRange.Lowest`, returning Go's `(int, bool)` pair. -/
def IntRange.Lowest (r : IntRange) : Int × Bool :=
  if r.MinUnbounded then (0, false)
  else if r.MinInclude then (r.Min, true)
  else (r.Min + 1, true)

/-- `IntRange.Highest`, returning Go's `(int, bool)` pair. -/
def IntRange.Highest (r : IntRange) : Int × Bool :=
  if r.MaxUnbounded then (0, false)
  else if r.MaxInclude then (r.Max, true)
  else (r.Max - 1, true)

/-- `IntRange.HasIntesect` (the typo is the source's). -/
def IntRange.HasIntesect (r other : IntRange) : Bool :=
  if !r.IsValid || !other.IsValid then false
  else if !r.MaxUnbounded && !other.MinUnbounded && (r.Highest.1 < other.Lowest.1) then false
  else if !r.MinUnbounded && !other.MaxUnbounded && (r.Lowest.1 > other.Highest.1) then false
  else true

/-- `IntRange.Substract` (the typo is the source's): the parts of `r` not
covered by `other`. -/
def IntRange.Substract (r other : IntRange) : List IntRange :=
  if !(r.HasIntesect other) then [r]
  else
    (if !other.MinUnbounded then
      (if !r.Lowest.2 || r.Lowest.1 < other.Lowest.1 then
        (let newRange : IntRange :=
          ⟨r.Min, r.MinInclude, other.Min, !other.MinInclude, r.MinUnbounded, false⟩
        if newRange.IsValid then [newRange] else [])
      else [])
    else []) ++
    (if !other.MaxUnbounded then
      (if !r.Highest.2 || r.Highest.1 > other.Highest.1 then
        (let newRange : IntRange :=
          ⟨other.Max, !other.MaxInclude, r.Max, r.MaxInclude, false, r.MaxUnbounded⟩
        if newRange.IsValid then [newRange] else [])
      else [])
    else [])

/-- `IntRange.TryMyBestToClosedInterval`. -/
def IntRange.TryMyBestToClosedInterval (r : IntRange) : IntRange :=
  if r.Lowest.2 then
    if r.Highest.2 then NewInclusiveIntRange r.Lowest.1 r.Highest.1
    else NewGreaterOrEqualThanIntRange r.Lowest.1
  else
    if r.Highest.2 then NewLessOrEqualThanIntRange r.Highest.1
    else NewUnboundedIntRange

/-- Structured stand-ins for the distinct `fmt.Errorf` messages produced by
`NewIntRange`. -/
inductive RangeErr where
  | emptyRange
  | invalidEq
  | invalidGe
  | invalidGt
  | invalidLe
  | invalidLt
  | invalidIntervalSyntax
  | infiniteLeftClosed
  | invalidLeftInt
  | infiniteRightClosed
  | invalidRightInt
  | emptyMinGtMax
  | emptyEqualBounds
  | unrecognized
deriving DecidableEq, Repr

/-- The trimming integer-parse helper closed over by `NewIntRange`. -/
def rangeParseInt (tok : Str) : Option Int :=
  let tok := trimSpace tok
  if tok = [] then none else goAtoi tok

/-- `strings.SplitN(inner, ",", 2)`: the part before the first comma and the
part after it, or `none` when there is no comma (one-element split). -/
def splitN2Comma (l : Str) : Option (Str × Str) :=
  if (l.dropWhile (fun c => c ≠ ',')) = [] then none
  else some (l.takeWhile (fun c => c ≠ ','), (l.dropWhile (fun c => c ≠ ',')).tail)

/-- The interval-notation (`(`/`[` … `,` … `)`/`]`) branch of `NewIntRange`,
acting on the already-trimmed text `s`. -/
def parseIntervalBody (s : Str) (r0 : IntRange) : Except RangeErr IntRange :=
  let leftInclusive := s.head? = some '['
  let rightInclusive := s.getLast? = some ']'
  let inner := trimSpace (s.drop 1).dropLast
  match splitN2Comma inner with
  | none => .error .invalidIntervalSyntax
  | some (p, q) =>
    let left := trimSpace p
    let right := trimSpace q
    let step1 : Except RangeErr IntRange :=
      if left = [] then
        if leftInclusive then .error .infiniteLeftClosed
        else .ok { r0 with Min := 0, MinInclude := false, MinUnbounded := true }
      else
        match goAtoi left with
        | none => .error .invalidLeftInt
        | some n => .ok { r0 with Min := n, MinInclude := leftInclusive, MinUnbounded := false }
    match step1 with
    | .error e => .error e
    | .ok r1 =>
      let step2 : Except RangeErr IntRange :=
        if right = [] then
          if rightInclusive then .error .infiniteRightClosed
          else .ok { r1 with Max := 0, MaxInclude := false, MaxUnbounded := true }
        else
          match goAtoi right with
          | none => .error .invalidRightInt
          | some n => .ok { r1 with Max := n, MaxInclude := rightInclusive, MaxUnbounded := false }
      match step2 with
      | .error e => .error e
      | .ok r2 =>
        if !r2.MinUnbounded && !r2.MaxUnbounded then
          if r2.Min > r2.Max then .error .emptyMinGtMax
          else if r2.Min = r2.Max && (!r2.MinInclude || !r2.MaxInclude) then
            .error .emptyEqualBounds
          else .ok r2
        else .ok r2

/-- `NewIntRange(value, emptyAsUnbounded)`. -/
def NewIntRange (value : Str) (emptyAsUnbounded : Bool) : Except RangeErr IntRange :=
  if value = [] then
    if emptyAsUnbounded then .ok NewUnboundedIntRange else .error .emptyRange
  else
    let s := trimSpace value
    let r0 : IntRange := ⟨0, false, 0, false, true, true⟩
    if s.head? = some '=' then
      match rangeParseInt (s.drop 1) with
      | none => .error .invalidEq
      | some n => .ok (NewSingleValueIntRange n)
    else if s.take 2 = ['>', '='] then
      match rangeParseInt (s.drop 2) with
      | none => .error .invalidGe
      | some n => .ok { r0 with Min := n, MinInclude := true, MinUnbounded := false }
    else if s.head? = some '>' then
      match rangeParseInt (s.drop 1) with
      | none => .error .invalidGt
      | some n => .ok { r0 with Min := n, MinInclude := false, MinUnbounded := false }
    else if s.take 2 = ['<', '='] then
      match rangeParseInt (s.drop 2) with
      | none => .error .invalidLe
      | some n => .ok { r0 with Max := n, MaxInclude := true, MaxUnbounded := false }
    else if s.head? = some '<' then
      match rangeParseInt (s.drop 1) with
      | none => .error .invalidLt
      | some n => .ok { r0 with Max := n, MaxInclude := false, MaxUnbounded := false }
    else if 2 ≤ s.length ∧ (s.head? = some '(' ∨ s.head? = some '[') ∧
        (s.getLast? = some ')' ∨ s.getLast? = some ']') then
      parseIntervalBody s r0
    else
      match goAtoi s with
      | none => .error .unrecognized
      | some n => .ok (NewSingleValueIntRange n)

/-- `IntRange.format(showInfty)`: the shared renderer behind `String()` and
`ToParseableString()`. -/
def IntRange.format (r : IntRange) (showInfty : Bool) : Str :=
  if !r.MinUnbounded && !r.MaxUnbounded && r.Min = r.Max && r.MinInclude && r.MaxInclude then
    intToChars r.Min
  else if r.MinUnbounded && !r.MaxUnbounded then
    if r.MaxInclude then '<' :: '=' :: intToChars r.Max
    else '<' :: intToChars r.Max
  else if r.MaxUnbounded && !r.MinUnbounded then
    if r.MinInclude then '>' :: '=' :: intToChars r.Min
    else '>' :: intToChars r.Min
  else
    (if r.MinInclude then ['['] else ['(']) ++
    (if r.MinUnbounded then (if showInfty then ['-', '∞'] else []) else intToChars r.Min) ++
    [','] ++
    (if r.MaxUnbounded then (if showInfty then ['∞'] else []) else intToChars r.Max) ++
    (if r.MaxInclude then [']'] else [')'])

/-- `IntRange.ToParseableString`. -/
def IntRange.ToParseableString (r : IntRange) : Str :=
  r.format false

/-- `NaturalRangeFilter`: an ordered union of `IntRange`s over the naturals. -/
structure NaturalRangeFilter where
  Ranges : List IntRange
deriving DecidableEq, Repr

def NewAllNaturalRangeFilter : NaturalRangeFilter :=
  ⟨[NewGreaterOrEqualThanIntRange 0]⟩

/-- `parseNaturalNumber`: `strconv.Atoi` plus a non-negativity check. -/
def parseNaturalNumber (s : Str) : Option Nat :=
  match goAtoi s with
  | none => none
  | some n => if n < 0 then none else some n.toNat

/-- Structured stand-ins for the `fmt.Errorf` messages of
`NewNaturalRangeFilter`; `nonDecreasing a b` carries the two numbers of
"numbers must be non-decreasing: a < b". -/
inductive FilterErr where
  | emptyToken (i : Nat)
  | invalidToken
  | invalidLeftBound
  | invalidRightBound
  | minGtMax
  | nonDecreasing (a b : Nat)
  | invalidBound
  | notNatural
deriving DecidableEq, Repr

/-- `strings.Split(v, sep)` for a one-character separator. -/
def splitOnSep (sep : Char) : Str → List Str
  | [] => [[]]
  | c :: cs =>
    match splitOnSep sep cs with
    | [] => [[c]]
    | h :: t => if c = sep then [] :: h :: t else (c :: h) :: t

/-- The token loop of `NewNaturalRangeFilter`: position `i`, the running
`prev` bound, and the accumulated `af.Ranges`. -/
def filterLoop : Nat → Nat → List IntRange → List Str → Except FilterErr NaturalRangeFilter
  | _, _, acc, [] => .ok ⟨acc⟩
  | i, prev, acc, tok0 :: rest =>
    let tok := trimSpace tok0
    if tok = [] then .error (.emptyToken i)
    else if 1 < tok.count '-' then
      if tok ≠ ['-', '-'] ∧ tok.head? = some '-' ∧ tok.getLast? = some '-' then
        match parseNaturalNumber (tok.drop 1).dropLast with
        | none => .error .invalidToken
        | some _ => .ok NewAllNaturalRangeFilter
      else .error .invalidToken
    else if tok.contains '-' then
      let left := tok.takeWhile (fun c => c ≠ '-')
      let right := (tok.dropWhile (fun c => c ≠ '-')).tail
      if left = [] ∧ right = [] then .error .invalidToken
      else if left ≠ [] ∧ right ≠ [] then
        match parseNaturalNumber left with
        | none => .error .invalidLeftBound
        | some n1 =>
          match parseNaturalNumber right with
          | none => .error .invalidRightBound
          | some n2 =>
            if n2 < n1 then .error .minGtMax
            else if n1 < prev then .error (.nonDecreasing n1 prev)
            else if n2 < prev then .error (.nonDecreasing n2 prev)
            else filterLoop (i + 1) n2 (acc ++ [NewInclusiveIntRange n1 n2]) rest
      else if left ≠ [] then
        match parseNaturalNumber left with
        | none => .error .invalidBound
        | some n =>
          if n < prev then .error (.nonDecreasing n prev)
          else filterLoop (i + 1) n (acc ++ [NewGreaterOrEqualThanIntRange n]) rest
      else
        match parseNaturalNumber right with
        | none => .error .invalidBound
        | some n =>
          if n < prev then .error (.nonDecreasing n prev)
          else filterLoop (i + 1) n (acc ++ [NewLessOrEqualThanIntRange n]) rest
    else
      match parseNaturalNumber tok with
      | none => .error .notNatural
      | some n =>
        if n < prev then .error (.nonDecreasing n prev)
        else filterLoop (i + 1) n (acc ++ [NewSingleValueIntRange n]) rest

/-- `NewNaturalRangeFilter(v)`. -/
def NewNaturalRangeFilter (v : Str) : Except FilterErr NaturalRangeFilter :=
  let v := trimSpace v
  if v = [] then .ok ⟨[]⟩
  else if v = ['a', 'l', 'l'] then .ok ⟨[NewUnboundedIntRange]⟩
  else filterLoop 0 0 [] (splitOnSep '_' v)

/-- `NaturalRangeFilter.Test`. -/
def NaturalRangeFilter.Test (f : NaturalRangeFilter) (n : Int) : Bool :=
  if n < 0 then false else f.Ranges.any (fun r => r.Contains n)

/-- The internal `sRange` struct of `Normalize`. -/
structure SRange where
  min : Int
  max : Int
  maxUn : Bool
deriving DecidableEq, Repr

/-- The `sort.Slice` comparator inside `Normalize`. -/
def srLess (a b : SRange) : Bool :=
  if a.min ≠ b.min then a.min < b.min
  else if a.maxUn ≠ b.maxUn then !a.maxUn && b.maxUn
  else a.max < b.max

def insertSR (x : SRange) : List SRange → List SRange
  | [] => [x]
  | y :: ys => if srLess x y then x :: y :: ys else y :: insertSR x ys

/-- Model of `sort.Slice(srs, srLess)`.  The Go sort is unstable, but
`srLess` is a strict total order except between fully equal elements, so
the sorted permutation is unique and insertion sort is a faithful model. -/
def sortSR : List SRange → List SRange
  | [] => []
  | x :: xs => insertSR x (sortSR xs)

/-- The merge sweep of `Normalize` (including its `break` on an
unbounded-max accumulated interval and its `last.max = cur.max`
assignment). -/
def normMerge : List SRange → List SRange → List SRange
  | merged, [] => merged
  | merged, cur :: rest =>
    if h : merged = [] then normMerge [cur] rest
    else
      let last := merged.getLast h
      if last.maxUn then merged
      else if cur.min ≤ last.max + 1 then
        normMerge (merged.dropLast ++ [{ last with max := cur.max }]) rest
      else normMerge (merged ++ [cur]) rest

/-- `NaturalRangeFilter.Normalize`. -/
def NaturalRangeFilter.Normalize (f : NaturalRangeFilter) : List IntRange :=
  let valids := f.Ranges.filterMap (fun r =>
    let n := r.TryMyBestToClosedInterval
    let n := if n.MinUnbounded || n.Min < 0 then
        { n with MinUnbounded := false, MinInclude := true, Min := 0 }
      else n
    if n.IsValid && (n.MaxUnbounded || decide (0 ≤ n.Max)) then some n else none)
  if valids = [] then []
  else
    let rightMin := valids.foldl (fun st r =>
      if r.MaxUnbounded then
        match st with
        | none => some r.Min
        | some m => if r.Min < m then some r.Min else some m
      else st) none
    let srs : List SRange :=
      (match rightMin with
      | some m => [⟨m, 0, true⟩]
      | none => []) ++
      valids.filterMap (fun r =>
        if r.MinUnbounded || r.MaxUnbounded then none else some ⟨r.Min, r.Max, false⟩)
    if srs = [] then []
    else
      (normMerge [] (sortSR srs)).map (fun m =>
        if m.maxUn then NewGreaterOrEqualThanIntRange m.min
        else if m.min = m.max then NewSingleValueIntRange m.min
        else NewInclusiveIntRange m.min m.max)

/-- `strings.Join(values, sep)`. -/
def joinSep (sep : Str) : List Str → Str
  | [] => []
  | [x] => x
  | x :: y :: xs => x ++ sep ++ joinSep sep (y :: xs)

/-- `checkInStringSlice(value, slice)`. -/
def checkInStringSlice (value : Str) (slice : List Str) : Bool :=
  slice.contains value

/-- The `encoding/json` calls made by the codec, abstracted: the claims about
the codec never reach a successful JSON decode/encode, so the theorems hold
for every decoder. `unmarshalArr`/`unmarshalStr` model `json.Unmarshal` into
`[]string`/`string`; `marshal` models `json.Marshal` (`none` = error). -/
structure JsonCodec where
  unmarshalArr : Str → Option (List Str)
  unmarshalStr : Str → Option Str
  marshal : List Str → Option Str

/-- Structured stand-ins for the error messages of the multi-value codec. -/
inductive MultiErr where
  | jsonCombined
  | invalidJson
  | unsupportedFormat
  | marshalFailed
  | unsupportedFormats
deriving DecidableEq, Repr

/-- The separator-set builder loop of `parseMultiValues`. -/
def buildSeps : List Str → Except MultiErr Str
  | [] => .ok []
  | f :: fs =>
    if f = "comma".data then (buildSeps fs).map (fun rest => ',' :: rest)
    else if f = "newline".data then (buildSeps fs).map (fun rest => '\r' :: '\n' :: rest)
    else if f = "space".data then (buildSeps fs).map (fun rest => ' ' :: rest)
    else .error .unsupportedFormat

theorem length_dropWhile_le_self {p : Char → Bool} (l : Str) :
    (l.dropWhile p).length ≤ l.length := by
  induction l with
  | nil => simp
  | cons c cs ih =>
    rw [List.dropWhile_cons]
    split
    · exact Nat.le_succ_of_le ih
    · simp

/-- `strings.FieldsFunc`: maximal runs of characters not satisfying `p`;
empty fields are dropped. -/
def fieldsFunc (p : Char → Bool) : Str → List Str
  | [] => []
  | c :: cs =>
    if p c then fieldsFunc p cs
    else (c :: cs.takeWhile (fun x => !p x)) :: fieldsFunc p (cs.dropWhile (fun x => !p x))
termination_by s => s.length
decreasing_by
  all_goals simp only [List.length_cons]
  · omega
  · exact Nat.lt_succ_of_le (length_dropWhile_le_self _)

/-- `splitAndTrim(s, seps)`. -/
def splitAndTrim (s : Str) (seps : Str) : List Str :=
  (fieldsFunc (fun c => seps.contains c) s).map trimSpace

/-- The JSON-occurrence loop of `parseMultiValues`. -/
def jsonParseLoop (jc : JsonCodec) : List Str → Except MultiErr (List Str)
  | [] => .ok []
  | raw0 :: rest =>
    let raw := trimSpace raw0
    if raw = [] then jsonParseLoop jc rest
    else
      match jc.unmarshalArr raw with
      | some arr => (jsonParseLoop jc rest).map (fun r => arr ++ r)
      | none =>
        match jc.unmarshalStr raw with
        | some s => (jsonParseLoop jc rest).map (fun r => s :: r)
        | none => .error .invalidJson

/-- `parseMultiValues(formats, rawValues, flag)`: `rawValues = none` models
Go's nil slice (whose nil result is distinct from the empty result). The
possibly-nil result inside the json branch is not distinguished from empty. -/
def parseMultiValues (jc : JsonCodec) (formats : List Str)
    (rawValues : Option (List Str)) : Except MultiErr (Option (List Str)) :=
  match rawValues with
  | none => .ok none
  | some rvs =>
    if rvs = [] then .ok (some [])
    else if formats = [] then .ok (some rvs)
    else if checkInStringSlice "json".data formats then
      if 1 < formats.length then .error .jsonCombined
      else (jsonParseLoop jc rvs).map some
    else
      match buildSeps formats with
      | .error e => .error e
      | .ok seps => .ok (some (rvs.flatMap (fun raw => splitAndTrim raw seps)))

/-- `outputMultiValues(formats, values)`. -/
def outputMultiValues (jc : JsonCodec) (formats values : List Str) :
    Except MultiErr Str :=
  if checkInStringSlice "json".data formats then
    if 1 < formats.length then .error .jsonCombined
    else if values = [] then .ok "[]".data
    else if formats = [] then .ok (joinSep [','] values)
    else
      match jc.marshal values with
      | none => .error .marshalFailed
      | some s => .ok s
  else
    if values = [] then .ok []
    else if formats = [] then .ok (joinSep [','] values)
    else if formats.contains "comma".data then .ok (joinSep [','] values)
    else if formats.contains "newline".data then .ok (joinSep ['\n'] values)
    else if formats.contains "space".data then .ok (joinSep [' '] values)
    else .error .unsupportedFormats

/-- `strings.ReplaceAll(s, old, new)` for a one-character `old`. -/
def replaceAllChar (s : Str) (old : Char) (new : Str) : Str :=
  s.flatMap (fun c => if c = old then new else [c])

/-- The buffered loop of `splitPreserveNewlines`; `buf` is kept reversed. -/
def splitPNAux : Str → Str → List Str
  | buf, [] => if buf = [] then [] else [buf.reverse]
  | buf, c :: rest =>
    if c = '\r' ∨ c = '\n' then
      (if buf = [] then [] else [buf.reverse]) ++
      (if c = '\r' then
        match rest with
        | '\n' :: rest2 => ['\r', '\n'] :: splitPNAux [] rest2
        | other => ['\r'] :: splitPNAux [] other
      else ['\n'] :: splitPNAux [] rest)
    else splitPNAux (c :: buf) rest

/-- `splitPreserveNewlines(s)`: split `s` into segments, keeping each
newline sequence `\r\n`, `\r`, `\n` as its own element. -/
def splitPreserveNewlines (s : Str) : List Str :=
  if s = [] then [[]] else splitPNAux [] s

/-- `buildShellLiteral(s)`: the POSIX single-quote encoder. -/
def buildShellLiteral (s : Str) : Str :=
  if s = [] then ['\'', '\'']
  else if !(s.contains '\'') then '\'' :: s ++ ['\'']
  else '\'' :: replaceAllChar s '\'' ['\'', '\\', '\'', '\''] ++ ['\'']

/-- `buildPowershellLiteral(s)`. -/
def buildPowershellLiteral (s : Str) : Str :=
  if s = [] then ['\'', '\'']
  else joinSep " + ".data ((splitPreserveNewlines s).map (fun p =>
    if p = ['\n'] then ['"', '`', 'n', '"']
    else if p = ['\r'] then ['"', '`', 'r', '"']
    else if p = ['\r', '\n'] then ['"', '`', 'r', '`', 'n', '"']
    else if p = [] then ['\'', '\'']
    else '\'' :: replaceAllChar p '\'' ['\'', '\''] ++ ['\'']))

/-- `buildCmdLiteral(s)`: note that the Go source's raw literals hold two
backslashes, so a bare newline segment becomes the five characters
`"\\n"`. -/
def buildCmdLiteral (s : Str) : Str :=
  ((splitPreserveNewlines s).map (fun p =>
    if p = ['\n'] then ['"', '\\', '\\', 'n', '"']
    else if p = ['\r'] then ['"', '\\', '\\', 'r', '"']
    else if p = ['\r', '\n'] then ['"', '\\', '\\', 'r', '\\', '\\', 'n', '"']
    else
      (let escaped := replaceAllChar p '"' ['\\', '"']
      if escaped = [] then ['"', '"']
      else '"' :: escaped ++ ['"']))).flatten

/-- The fields of `FlagSpec` consumed by the export path (the declaration
carries more fields, all irrelevant to the emitted statements). -/
structure FlagSpec where
  MultiFormat : List Str
  EnvName : Str
  Export : Bool
  Value : List Str
deriving DecidableEq, Repr

/-- The fields of `CmdSpec` consumed by the export path. `Flags` models the
Go `map[string]*FlagSpec`: an association list assumed key-unique, with
`none` for a nil pointer. -/
structure CmdSpec where
  EnvPrefix : Str
  Flags : List (Str × Option FlagSpec)
deriving DecidableEq, Repr

/-- Map lookup on the association list (unique keys assumed). -/
def lookupFlag (flags : List (Str × Option FlagSpec)) (k : Str) : Option (Option FlagSpec) :=
  match flags with
  | [] => none
  | (k2, v) :: rest => if k2 = k then some v else lookupFlag rest k

/-- Go ASCII `strings.ToUpper` on one character. -/
def toUpperChar (c : Char) : Char :=
  if 97 ≤ c.toNat ∧ c.toNat ≤ 122 then Char.ofNat (c.toNat - 32) else c

/-- `calcEnvName(fs, key, prefixText)`. -/
def calcEnvName (fs : FlagSpec) (key : Str) (prefixText : Str) : Str :=
  let varName := if fs.EnvName = [] then
      (replaceAllChar key '-' ['_']).map toUpperChar
    else fs.EnvName
  if prefixText = [] then varName else prefixText ++ varName

/-- Go byte-wise string comparison (`sort.Strings` order); for UTF-8 this
coincides with code-point order. -/
def strLess (a b : Str) : Bool :=
  match a, b with
  | [], [] => false
  | [], _ :: _ => true
  | _ :: _, [] => false
  | x :: xs, y :: ys => if x.toNat < y.toNat then true
    else if y.toNat < x.toNat then false
    else strLess xs ys

def insertStr (x : Str) : List Str → List Str
  | [] => [x]
  | y :: ys => if strLess x y then x :: y :: ys else y :: insertStr x ys

/-- Model of `sort.Strings`: `strLess` is a strict total order, so the
sorted list is unique and insertion sort is faithful. -/
def sortStrings : List Str → List Str
  | [] => []
  | x :: xs => insertStr x (sortStrings xs)

/-- `strings.Trim(s, cutset)` for the one-character cutset; drops leading
and trailing occurrences of `c`. -/
def trimChar (s : Str) (c : Char) : Str :=
  ((s.dropWhile (fun x => x = c)).reverse.dropWhile (fun x => x = c)).reverse

/-- The per-key body of `exportEnvVarCmdLike`, accumulating lines. -/
def cmdLikeLoop (jc : JsonCodec) (spec : CmdSpec) : List Str → Except MultiErr (List Str)
  | [] => .ok []
  | key :: rest =>
    match lookupFlag spec.Flags key with
    | none => cmdLikeLoop jc spec rest
    | some none => cmdLikeLoop jc spec rest
    | some (some fs) =>
      let varName := calcEnvName fs key spec.EnvPrefix
      match outputMultiValues jc fs.MultiFormat fs.Value with
      | .error e => .error e
      | .ok val =>
        let escaped := buildCmdLiteral val
        let line := if fs.Export then
            "setx ".data ++ varName ++ [' ', '"'] ++ escaped ++ ['"']
          else
            "set \"".data ++ varName ++ ['='] ++ trimChar escaped '"' ++ ['"']
        (cmdLikeLoop jc spec rest).map (fun ls => line :: ls)

/-- `exportEnvVarCmdLike(spec)`. -/
def exportEnvVarCmdLike (jc : JsonCodec) (spec : CmdSpec) : Except MultiErr Str :=
  if spec.Flags = [] then .ok []
  else
    match cmdLikeLoop jc spec (sortStrings (spec.Flags.map Prod.fst)) with
    | .error e => .error e
    | .ok lines => .ok (joinSep ['\r', '\n'] lines)

/-- The per-key body of `exportEnvVarLinuxLike`. -/
def linuxLikeLoop (jc : JsonCodec) (spec : CmdSpec) : List Str → Except MultiErr (List Str)
  | [] => .ok []
  | key :: rest =>
    match lookupFlag spec.Flags key with
    | none => linuxLikeLoop jc spec rest
    | some none => linuxLikeLoop jc spec rest
    | some (some fs) =>
      let varName := calcEnvName fs key spec.EnvPrefix
      match outputMultiValues jc fs.MultiFormat fs.Value with
      | .error e => .error e
      | .ok val =>
        let quoted := buildShellLiteral val
        let line := if fs.Export then
            "export ".data ++ varName ++ ['='] ++ quoted
          else
            varName ++ ['='] ++ quoted
        (linuxLikeLoop jc spec rest).map (fun ls => line :: ls)

/-- `exportEnvVarLinuxLike(spec)`. -/
def exportEnvVarLinuxLike (jc : JsonCodec) (spec : CmdSpec) : Except MultiErr Str :=
  if spec.Flags = [] then .ok []
  else
    match linuxLikeLoop jc spec (sortStrings (spec.Flags.map Prod.fst)) with
    | .error e => .error e
    | .ok lines => .ok (joinSep ['\n'] lines)

/-- The `escapeForPS` closure of `exportEnvVarPowershellLike`. -/
def escapeForPS (s : Str) : Str :=
  if s = [] then ['\'', '\'']
  else '\'' :: replaceAllChar s '\'' ['\'', '\''] ++ ['\'']

/-- The per-key body of `exportEnvVarPowershellLike`. -/
def powershellLikeLoop (jc : JsonCodec) (spec : CmdSpec) : List Str → Except MultiErr (List Str)
  | [] => .ok []
  | key :: rest =>
    match lookupFlag spec.Flags key with
    | none => powershellLikeLoop jc spec rest
    | some none => powershellLikeLoop jc spec rest
    | some (some fs) =>
      let varName := calcEnvName fs key spec.EnvPrefix
      match outputMultiValues jc fs.MultiFormat fs.Value with
      | .error e => .error e
      | .ok val =>
        let escaped := buildPowershellLiteral val
        let line := if fs.Export then
            "[System.Environment]::SetEnvironmentVariable(".data ++ escapeForPS varName ++
              [','] ++ escaped ++ ",'User')".data
          else
            "$Env:".data ++ varName ++ " = ".data ++ escaped
        (powershellLikeLoop jc spec rest).map (fun ls => line :: ls)

/-- `exportEnvVarPowershellLike(spec)`. -/
def exportEnvVarPowershellLike (jc : JsonCodec) (spec : CmdSpec) : Except MultiErr Str :=
  if spec.Flags = [] then .ok []
  else
    match powershellLikeLoop jc spec (sortStrings (spec.Flags.map Prod.fst)) with
    | .error e => .error e
    | .ok lines => .ok (joinSep ['\n'] lines)

/-- Reference POSIX word evaluation for the fragment emitted by
`buildShellLiteral`: outside quotes a backslash escapes the next character
and a single quote opens a quoted span; inside single quotes every
character up to the closing quote is literal.  `none` for a dangling
backslash or an unterminated quote. -/
def posixEvalAux : Bool → Str → Option Str
  | false, [] => some []
  | false, c :: rest =>
    if c = '\'' then posixEvalAux true rest
    else if c = '\\' then
      match rest with
      | [] => none
      | d :: rest2 => (posixEvalAux false rest2).map (fun t => d :: t)
    else (posixEvalAux false rest).map (fun t => c :: t)
  | true, [] => none
  | true, c :: rest =>
    if c = '\'' then posixEvalAux false rest
    else (posixEvalAux true rest).map (fun t => c :: t)

def posixUnquote (s : Str) : Option Str := posixEvalAux false s

/-- The per-character substitution of the POSIX encoder: a single quote
becomes the four characters of the sequence quote backslash quote quote;
every other character is kept. -/
def posixEscChar (c : Char) : Str :=
  if c = '\'' then ['\'', '\\', '\'', '\''] else [c]

theorem flatMap_posixEscChar_of_no_quote {s : Str} (h : ∀ c ∈ s, c ≠ '\'') :
    s.flatMap posixEscChar = s := by
  induction s with
  | nil => rfl
  | cons c cs ih =>
    rw [List.flatMap_cons, posixEscChar, if_neg (h c (List.mem_cons_self c cs)),
      ih (fun x hx => h x (List.mem_cons_of_mem c hx))]
    rfl

theorem buildShellLiteral_eq_escape (s : Str) :
    buildShellLiteral s = '\'' :: s.flatMap posixEscChar ++ ['\''] := by
  unfold buildShellLiteral
  split
  · subst (by assumption : s = [])
    rfl
  · split
    · rename_i hnq
      rw [flatMap_posixEscChar_of_no_quote]
      intro c hc hq
      subst hq
      have hmem : s.contains '\'' = true := List.elem_eq_true_of_mem hc
      rw [hmem] at hnq
      exact absurd hnq (by decide)
    · simp only [replaceAllChar, posixEscChar]
      rfl

theorem posixEvalAux_false_nil : posixEvalAux false [] = some [] := by
  rw [posixEvalAux.eq_def]

theorem posixEvalAux_true_quote (r : Str) :
    posixEvalAux true ('\'' :: r) = posixEvalAux false r := by
  rw [posixEvalAux.eq_def]
  simp

theorem posixEvalAux_true_cons {c : Char} (hc : c ≠ '\'') (r : Str) :
    posixEvalAux true (c :: r) = (posixEvalAux true r).map (fun t => c :: t) := by
  rw [posixEvalAux.eq_def]
  simp [hc]

theorem posixEvalAux_false_quote (r : Str) :
    posixEvalAux false ('\'' :: r) = posixEvalAux true r := by
  rw [posixEvalAux.eq_def]
  simp

theorem posixEvalAux_false_backslash (d : Char) (r : Str) :
    posixEvalAux false ('\\' :: d :: r) = (posixEvalAux false r).map (fun t => d :: t) := by
  rw [posixEvalAux.eq_def]
  simp

theorem posixEvalAux_true_escape (s : Str) (t : Str) :
    posixEvalAux true (s.flatMap posixEscChar ++ '\'' :: t) =
      (posixEvalAux false t).map (fun u => s ++ u) := by
  induction s with
  | nil =>
    rw [List.flatMap_nil, List.nil_append, posixEvalAux_true_quote]
    cases posixEvalAux false t <;> rfl
  | cons c cs ih =>
    by_cases hc : c = '\''
    · subst hc
      rw [List.flatMap_cons]
      have hs : posixEscChar '\'' ++ cs.flatMap posixEscChar ++ '\'' :: t =
          '\'' :: '\\' :: '\'' :: '\'' :: (cs.flatMap posixEscChar ++ '\'' :: t) := by
        simp [posixEscChar]
      rw [hs, posixEvalAux_true_quote, posixEvalAux_false_backslash,
        posixEvalAux_false_quote, ih]
      cases posixEvalAux false t <;> rfl
    · rw [List.flatMap_cons]
      have hs : posixEscChar c ++ cs.flatMap posixEscChar ++ '\'' :: t =
          c :: (cs.flatMap posixEscChar ++ '\'' :: t) := by
        simp [posixEscChar, hc]
      rw [hs, posixEvalAux_true_cons hc, ih]
      cases posixEvalAux false t <;> rfl

/-- C2: the POSIX encoder wraps the value in single quotes, replacing each
embedded single quote by the four-character sequence quote backslash quote
quote and changing nothing else; evaluating the literal under POSIX
single-quote semantics reproduces the input byte-for-byte (in particular
embedded Unix, Mac or Windows newline sequences survive unchanged). -/
theorem shell_literal_roundtrip (s : Str) :
    buildShellLiteral s = '\'' :: s.flatMap posixEscChar ++ ['\''] ∧
      posixUnquote (buildShellLiteral s) = some s := by
  refine ⟨buildShellLiteral_eq_escape s, ?_⟩
  rw [buildShellLiteral_eq_escape s]
  show posixEvalAux false ('\'' :: (s.flatMap posixEscChar ++ ['\''])) = some s
  rw [posixEvalAux_false_quote]
  have h2 : s.flatMap posixEscChar ++ ['\''] = s.flatMap posixEscChar ++ '\'' :: [] := rfl
  rw [h2, posixEvalAux_true_escape, posixEvalAux_false_nil]
  simp

theorem contains_eq_false_of_not_mem {α : Type} [BEq α] [LawfulBEq α]
    {l : List α} {a : α} (h : a ∉ l) : l.contains a = false :=
  Bool.eq_false_iff.mpr (fun ht => h (List.elem_iff.mp ht))

/-- C8: with a non-empty value list and a format list free of `json`,
serialization joins the values with exactly one separator, chosen by the
fixed priority comma over newline over space among the configured formats;
with no formats configured the join separator is the comma. -/
theorem serialize_separator_priority (jc : JsonCodec) (formats values : List Str)
    (hv : values ≠ []) (hnj : "json".data ∉ formats) :
    (formats = [] → outputMultiValues jc formats values = .ok (joinSep [','] values)) ∧
    ("comma".data ∈ formats ∨ "newline".data ∈ formats ∨ "space".data ∈ formats →
      outputMultiValues jc formats values = .ok (joinSep
        (if "comma".data ∈ formats then [',']
         else if "newline".data ∈ formats then ['\n']
         else [' ']) values)) := by
  have hnjc : checkInStringSlice "json".data formats = false :=
    contains_eq_false_of_not_mem hnj
  constructor
  · intro hf
    subst hf
    rw [outputMultiValues, hnjc]
    simp [hv]
  · intro hany
    have hne : formats ≠ [] := by
      rintro rfl
      rcases hany with h | h | h <;> exact absurd h (List.not_mem_nil _)
    rw [outputMultiValues, hnjc]
    simp only [Bool.false_eq_true, if_false, if_neg hv, if_neg hne]
    by_cases hc : "comma".data ∈ formats
    · rw [if_pos (List.elem_eq_true_of_mem hc), if_pos hc]
    · rw [if_neg (by rw [contains_eq_false_of_not_mem hc]; exact Bool.false_ne_true),
        if_neg hc]
      by_cases hn : "newline".data ∈ formats
      · rw [if_pos (List.elem_eq_true_of_mem hn), if_pos hn]
      · rw [if_neg (by rw [contains_eq_false_of_not_mem hn]; exact Bool.false_ne_true),
          if_neg hn]
        have hs : "space".data ∈ formats := by
          rcases hany with h | h | h
          · exact absurd h hc
          · exact absurd h hn
          · exact h
        rw [if_pos (List.elem_eq_true_of_mem hs)]

/-- Witness for C8 at `formats = ["newline", "space"]`, `values = ["a", "b"]`:
the newline separator wins. -/
theorem serialize_separator_priority_witness :
    outputMultiValues ⟨fun _ => none, fun _ => none, fun _ => none⟩
      ["newline".data, "space".data] ["a".data, "b".data] = .ok ['a', '\n', 'b'] := by
  have h := (serialize_separator_priority ⟨fun _ => none, fun _ => none, fun _ => none⟩
    ["newline".data, "space".data] ["a".data, "b".data] (by decide) (by decide)).2
    (Or.inr (Or.inl (by decide)))
  rw [h]
  rfl

/-- C6 counterexample: with formats `json, comma`, the multi-value parse of
a nil raw-occurrence list (and likewise of an empty one) succeeds instead
of failing — the nil/empty early returns run before the format check. -/
theorem parse_json_combined_nil_ok :
    parseMultiValues ⟨fun _ => none, fun _ => none, fun _ => none⟩
      ["json".data, "comma".data] none = .ok none ∧
    parseMultiValues ⟨fun _ => none, fun _ => none, fun _ => none⟩
      ["json".data, "comma".data] (some []) = .ok (some []) := by
  exact ⟨rfl, rfl⟩

/-- C6 (amended): when `json` is combined with another format, Serialize
fails for every value list and Parse fails for every non-empty
raw-occurrence list, while a nil or empty raw-occurrence list still short
circuits to a successful nil/empty result. -/
theorem json_combined_errors (jc : JsonCodec) (formats : List Str)
    (hj : "json".data ∈ formats) (hlen : 1 < formats.length) :
    (∀ rvs, rvs ≠ [] → parseMultiValues jc formats (some rvs) = .error .jsonCombined) ∧
    (∀ values, outputMultiValues jc formats values = .error .jsonCombined) ∧
    parseMultiValues jc formats none = .ok none ∧
    parseMultiValues jc formats (some []) = .ok (some []) := by
  have hne : formats ≠ [] := by
    rintro rfl
    exact absurd hj (List.not_mem_nil _)
  have hcj : checkInStringSlice "json".data formats = true := List.elem_eq_true_of_mem hj
  refine ⟨?_, ?_, rfl, by rw [parseMultiValues]; rw [if_pos rfl]⟩
  · intro rvs hrvs
    rw [parseMultiValues]
    rw [if_neg hrvs, if_neg hne, if_pos hcj, if_pos hlen]
  · intro values
    rw [outputMultiValues, hcj]
    simp only [if_true, if_pos hlen]

/-- Witness for C6 at formats `json, comma`: parsing the raw occurrence
`x` fails and serializing `v` fails. -/
theorem json_combined_errors_witness :
    parseMultiValues ⟨fun _ => none, fun _ => none, fun _ => none⟩
      ["json".data, "comma".data] (some ["x".data]) = .error .jsonCombined ∧
    outputMultiValues ⟨fun _ => none, fun _ => none, fun _ => none⟩
      ["json".data, "comma".data] ["v".data] = .error .jsonCombined := by
  have h := json_combined_errors ⟨fun _ => none, fun _ => none, fun _ => none⟩
    ["json".data, "comma".data] (by decide) (by decide)
  exact ⟨h.1 ["x".data] (by simp), h.2.1 ["v".data]⟩

/-- C3 counterexample: on the one-character input LF the cmd encoder emits
the five characters quote backslash backslash n quote (two backslashes:
the Go raw literals hold a doubled backslash), not the four-character
quote backslash n quote that the claim's two-character escape text
predicts. -/
theorem cmd_literal_newline_counterexample :
    buildCmdLiteral ['\n'] = ['"', '\\', '\\', 'n', '"'] ∧
      buildCmdLiteral ['\n'] ≠ ['"', '\\', 'n', '"'] := by
  refine ⟨rfl, ?_⟩
  decide

/-- The per-segment text of the cmd encoder as amended: a bare LF segment
becomes backslash backslash n (three characters) in its own double-quoted
segment, a bare CR becomes backslash backslash r, a CRLF becomes the six
characters backslash backslash r backslash backslash n, and an ordinary
segment is double-quoted with each inner double quote escaped to
backslash quote. -/
def cmdSegTextAmended (p : Str) : Str :=
  if p = ['\n'] then ['"', '\\', '\\', 'n', '"']
  else if p = ['\r'] then ['"', '\\', '\\', 'r', '"']
  else if p = ['\r', '\n'] then ['"', '\\', '\\', 'r', '\\', '\\', 'n', '"']
  else if replaceAllChar p '"' ['\\', '"'] = [] then ['"', '"']
  else '"' :: replaceAllChar p '"' ['\\', '"'] ++ ['"']

/-- C3 (amended): the cmd encoder maps every segment produced by
`splitPreserveNewlines` through `cmdSegTextAmended` and concatenates the
results with no join text. -/
theorem cmd_literal_segments (s : Str) :
    buildCmdLiteral s = ((splitPreserveNewlines s).map cmdSegTextAmended).flatten := by
  rfl

/-- C1 (code-bug evaluation): parsing `0_0-` yields the filter
{point 0} ∪ [0, +∞), whose `Test` accepts 1, yet `Normalize` returns only
the single point 0: the merge sweep's `last.max = cur.max` assignment
drops the unbounded tail, so the normalized list no longer covers the
same subset of the naturals (no member contains 1). -/
theorem normalize_drops_unbounded_tail :
    NewNaturalRangeFilter "0_0-".data =
      .ok ⟨[NewSingleValueIntRange 0, NewGreaterOrEqualThanIntRange 0]⟩ ∧
    NaturalRangeFilter.Test
      ⟨[NewSingleValueIntRange 0, NewGreaterOrEqualThanIntRange 0]⟩ 1 = true ∧
    NaturalRangeFilter.Normalize
      ⟨[NewSingleValueIntRange 0, NewGreaterOrEqualThanIntRange 0]⟩ =
      [NewSingleValueIntRange 0] ∧
    (NaturalRangeFilter.Normalize
      ⟨[NewSingleValueIntRange 0, NewGreaterOrEqualThanIntRange 0]⟩).all
      (fun r => !(r.Contains 1)) = true :=
  ⟨rfl, rfl, rfl, rfl⟩

/-- C7: a valid range subtracted from itself leaves no residual interval,
and subtracting the fully unbounded range also leaves none. -/
theorem substract_self_and_unbounded (r : IntRange) (h : r.IsValid = true) :
    r.Substract r = [] ∧ r.Substract NewUnboundedIntRange = [] := by
  obtain ⟨mn, mi, mx, ma, mu, xu⟩ := r
  constructor
  · cases mi <;> cases ma <;> cases mu <;> cases xu <;>
      simp_all [IntRange.Substract, IntRange.HasIntesect, IntRange.IsValid,
        IntRange.Lowest, IntRange.Highest, NewUnboundedIntRange] <;>
      omega
  · cases mi <;> cases ma <;> cases mu <;> cases xu <;>
      simp_all [IntRange.Substract, IntRange.HasIntesect, IntRange.IsValid,
        IntRange.Lowest, IntRange.Highest, NewUnboundedIntRange]

/-- Witness for C7 at the closed interval `[1,3]`. -/
theorem substract_self_and_unbounded_witness :
    (NewInclusiveIntRange 1 3).Substract (NewInclusiveIntRange 1 3) = [] ∧
      (NewInclusiveIntRange 1 3).Substract NewUnboundedIntRange = [] :=
  substract_self_and_unbounded (NewInclusiveIntRange 1 3) (by decide)

theorem intToChars_ne_nil (n : Int) : intToChars n ≠ [] := by
  unfold intToChars
  split
  · simp
  · exact natToChars_ne_nil _

theorem intToChars_head_cases (n : Int) :
    ∃ c rest, intToChars n = c :: rest ∧ (c = '-' ∨ isDigitChar c = true) := by
  unfold intToChars
  split
  · exact ⟨'-', natToChars (-n).toNat, rfl, Or.inl rfl⟩
  · cases h : natToChars n.toNat with
    | nil => exact absurd h (natToChars_ne_nil _)
    | cons c rest =>
      refine ⟨c, rest, rfl, Or.inr ?_⟩
      exact List.all_eq_true.mp (h ▸ natToChars_all_digits n.toNat) c
        (List.mem_cons_self c rest)

theorem headNotSpecial {c : Char} (h : c = '-' ∨ isDigitChar c = true) :
    c ≠ '=' ∧ c ≠ '>' ∧ c ≠ '<' ∧ c ≠ '(' ∧ c ≠ '[' ∧ c ≠ ',' ∧ c ≠ '_' := by
  rcases h with rfl | h
  · exact ⟨by decide, by decide, by decide, by decide, by decide, by decide, by decide⟩
  · exact ⟨digit_ne h (by decide), digit_ne h (by decide), digit_ne h (by decide),
      digit_ne h (by decide), digit_ne h (by decide), digit_ne h (by decide),
      digit_ne h (by decide)⟩

theorem mem_intToChars_not_special {n : Int} {c : Char} (h : c ∈ intToChars n) :
    c ≠ '=' ∧ c ≠ '>' ∧ c ≠ '<' ∧ c ≠ '(' ∧ c ≠ '[' ∧ c ≠ ',' ∧ c ≠ '_' :=
  headNotSpecial (mem_intToChars h)

theorem takeWhile_append_all {p : Char → Bool} {l1 : Str} (h : ∀ c ∈ l1, p c = true)
    (l2 : Str) : (l1 ++ l2).takeWhile p = l1 ++ l2.takeWhile p := by
  induction l1 with
  | nil => rfl
  | cons c cs ih =>
    rw [List.cons_append, List.takeWhile_cons, h c (List.mem_cons_self c cs),
      ih (fun x hx => h x (List.mem_cons_of_mem c hx))]
    rfl

theorem dropWhile_append_all {p : Char → Bool} {l1 : Str} (h : ∀ c ∈ l1, p c = true)
    (l2 : Str) : (l1 ++ l2).dropWhile p = l2.dropWhile p := by
  induction l1 with
  | nil => rfl
  | cons c cs ih =>
    rw [List.cons_append, List.dropWhile_cons, h c (List.mem_cons_self c cs),
      ih (fun x hx => h x (List.mem_cons_of_mem c hx))]
    simp

theorem newIntRange_plain (n : Int) :
    NewIntRange (intToChars n) false = .ok (NewSingleValueIntRange n) := by
  obtain ⟨c, rest, hrep, hc⟩ := intToChars_head_cases n
  obtain ⟨h1, h2, h3, h4, h5, h6, h7⟩ := headNotSpecial hc
  have hh : (intToChars n).head? = some c := by rw [hrep]; rfl
  have ht2 : (intToChars n).take 2 = c :: rest.take 1 := by rw [hrep]; rfl
  simp only [NewIntRange]
  rw [if_neg (intToChars_ne_nil n), trimSpace_intToChars, hh, ht2]
  have hInt : ¬((2 : Nat) ≤ (c :: rest).length ∧
      (some c = some '(' ∨ some c = some '[') ∧
      ((c :: rest).getLast? = some ')' ∨ (c :: rest).getLast? = some ']')) := by
    rintro ⟨-, hor, -⟩
    exact hor.elim (fun h => h4 (Option.some.inj h)) (fun h => h5 (Option.some.inj h))
  rw [hrep]
  rw [if_neg (by simp [h1]), if_neg (by simp [h2]), if_neg (by simp [h2]),
    if_neg (by simp [h3]), if_neg (by simp [h3]), if_neg hInt]
  rw [← hrep, goAtoi_intToChars n]

theorem not_space_of_mem_intToChars {n : Int} {c : Char} (h : c ∈ intToChars n) :
    isSpaceChar c = false := by
  rcases mem_intToChars h with rfl | hd
  · decide
  · exact digit_not_space hd

theorem rangeParseInt_intToChars (n : Int) : rangeParseInt (intToChars n) = some n := by
  simp only [rangeParseInt]
  rw [trimSpace_intToChars, if_neg (intToChars_ne_nil n), goAtoi_intToChars n]

theorem trimSpace_op_intToChars (ops : Str) (hops : ∀ c ∈ ops, isSpaceChar c = false)
    (n : Int) : trimSpace (ops ++ intToChars n) = ops ++ intToChars n :=
  trimSpace_eq_self (fun c hc => (List.mem_append.mp hc).elim (hops c)
    (fun h => not_space_of_mem_intToChars h))

theorem newIntRange_ge (n : Int) :
    NewIntRange ('>' :: '=' :: intToChars n) false = .ok ⟨n, true, 0, false, false, true⟩ := by
  have hs : ∀ c ∈ '>' :: '=' :: intToChars n, isSpaceChar c = false := by
    intro c hc
    rcases List.mem_cons.mp hc with rfl | hc
    · decide
    rcases List.mem_cons.mp hc with rfl | hc
    · decide
    exact not_space_of_mem_intToChars hc
  simp only [NewIntRange]
  rw [if_neg (by simp), trimSpace_eq_self hs]
  rw [if_neg (by simp), if_pos (show List.take 2 ('>' :: '=' :: intToChars n) = ['>', '='] from rfl)]
  have hd : List.drop 2 ('>' :: '=' :: intToChars n) = intToChars n := rfl
  rw [hd, rangeParseInt_intToChars n]

theorem newIntRange_gt (n : Int) :
    NewIntRange ('>' :: intToChars n) false = .ok ⟨n, false, 0, false, false, true⟩ := by
  obtain ⟨c, rest, hrep, hc⟩ := intToChars_head_cases n
  obtain ⟨h1, h2, h3, h4, h5, h6, h7⟩ := headNotSpecial hc
  have hs : ∀ x ∈ '>' :: intToChars n, isSpaceChar x = false := by
    intro x hx
    rcases List.mem_cons.mp hx with rfl | hx
    · decide
    exact not_space_of_mem_intToChars hx
  simp only [NewIntRange]
  rw [if_neg (by simp), trimSpace_eq_self hs, hrep]
  rw [if_neg (by simp)]
  rw [if_neg (show ¬List.take 2 ('>' :: c :: rest) = ['>', '='] by simp [h1])]
  rw [if_pos (show List.head? ('>' :: c :: rest) = some '>' from rfl)]
  have hd : List.drop 1 ('>' :: c :: rest) = intToChars n := hrep.symm
  rw [hd, rangeParseInt_intToChars n]

theorem newIntRange_le (n : Int) :
    NewIntRange ('<' :: '=' :: intToChars n) false = .ok ⟨0, false, n, true, true, false⟩ := by
  have hs : ∀ c ∈ '<' :: '=' :: intToChars n, isSpaceChar c = false := by
    intro c hc
    rcases List.mem_cons.mp hc with rfl | hc
    · decide
    rcases List.mem_cons.mp hc with rfl | hc
    · decide
    exact not_space_of_mem_intToChars hc
  simp only [NewIntRange]
  rw [if_neg (by simp), trimSpace_eq_self hs]
  rw [if_neg (by simp)]
  rw [if_neg (show ¬List.take 2 ('<' :: '=' :: intToChars n) = ['>', '='] by simp)]
  rw [if_neg (by simp)]
  rw [if_pos (show List.take 2 ('<' :: '=' :: intToChars n) = ['<', '='] from rfl)]
  have hd : List.drop 2 ('<' :: '=' :: intToChars n) = intToChars n := rfl
  rw [hd, rangeParseInt_intToChars n]

theorem newIntRange_lt (n : Int) :
    NewIntRange ('<' :: intToChars n) false = .ok ⟨0, false, n, false, true, false⟩ := by
  obtain ⟨c, rest, hrep, hc⟩ := intToChars_head_cases n
  obtain ⟨h1, h2, h3, h4, h5, h6, h7⟩ := headNotSpecial hc
  have hs : ∀ x ∈ '<' :: intToChars n, isSpaceChar x = false := by
    intro x hx
    rcases List.mem_cons.mp hx with rfl | hx
    · decide
    exact not_space_of_mem_intToChars hx
  simp only [NewIntRange]
  rw [if_neg (by simp), trimSpace_eq_self hs, hrep]
  rw [if_neg (by simp)]
  rw [if_neg (show ¬List.take 2 ('<' :: c :: rest) = ['>', '='] by simp)]
  rw [if_neg (by simp)]
  rw [if_neg (show ¬List.take 2 ('<' :: c :: rest) = ['<', '='] by simp [h1])]
  rw [if_pos (show List.head? ('<' :: c :: rest) = some '<' from rfl)]
  have hd : List.drop 1 ('<' :: c :: rest) = intToChars n := hrep.symm
  rw [hd, rangeParseInt_intToChars n]

theorem no_space_bracket {lc rc : Char} (hlc : isSpaceChar lc = false)
    (hrc : isSpaceChar rc = false) (a b : Int) :
    ∀ x ∈ lc :: intToChars a ++ [','] ++ intToChars b ++ [rc], isSpaceChar x = false := by
  intro x hx
  rcases List.mem_cons.mp hx with rfl | hx
  · exact hlc
  rcases List.mem_append.mp hx with hx | hx
  · rcases List.mem_append.mp hx with hx | hx
    · rcases List.mem_append.mp hx with hx | hx
      · exact not_space_of_mem_intToChars hx
      · have := List.mem_singleton.mp hx
        subst this
        decide
    · exact not_space_of_mem_intToChars hx
  · have := List.mem_singleton.mp hx
    subst this
    exact hrc

theorem getLast_bracket (lc rc : Char) (a b : Int) :
    List.getLast? (lc :: intToChars a ++ [','] ++ intToChars b ++ [rc]) = some rc := by
  have h : lc :: intToChars a ++ [','] ++ intToChars b ++ [rc] =
      (lc :: intToChars a ++ [','] ++ intToChars b) ++ [rc] := by simp
  rw [h, List.getLast?_concat]

theorem dropLast_bracket (lc rc : Char) (a b : Int) :
    ((lc :: intToChars a ++ [','] ++ intToChars b ++ [rc]).drop 1).dropLast =
      intToChars a ++ [','] ++ intToChars b := by
  have h1 : (lc :: intToChars a ++ [','] ++ intToChars b ++ [rc]).drop 1 =
      (intToChars a ++ [','] ++ intToChars b) ++ [rc] := by simp
  rw [h1, List.dropLast_concat]

theorem splitN2Comma_bracket (a b : Int) :
    splitN2Comma (intToChars a ++ [','] ++ intToChars b) =
      some (intToChars a, intToChars b) := by
  have hall : ∀ c ∈ intToChars a, (fun x => decide (x ≠ ',')) c = true := by
    intro c hc
    simp [(mem_intToChars_not_special hc).2.2.2.2.2.1]
  have hdw : (intToChars a ++ [','] ++ intToChars b).dropWhile (fun x => x ≠ ',') =
      ',' :: intToChars b := by
    have h : intToChars a ++ [','] ++ intToChars b =
        intToChars a ++ (',' :: intToChars b) := by simp
    rw [h, dropWhile_append_all hall]
    rfl
  have htw : (intToChars a ++ [','] ++ intToChars b).takeWhile (fun x => x ≠ ',') =
      intToChars a := by
    have h : intToChars a ++ [','] ++ intToChars b =
        intToChars a ++ (',' :: intToChars b) := by simp
    rw [h, takeWhile_append_all hall]
    simp
  rw [splitN2Comma, hdw, htw]
  simp

theorem newIntRange_interval_branch {value : Str}
    (hne : value ≠ []) (htrim : trimSpace value = value)
    {c : Char} (hhead : value.head? = some c) (hc : c = '(' ∨ c = '[')
    (hlen : 2 ≤ value.length)
    {d : Char} (hlast : value.getLast? = some d) (hd : d = ')' ∨ d = ']') :
    NewIntRange value false = parseIntervalBody value ⟨0, false, 0, false, true, true⟩ := by
  obtain ⟨rest, rfl⟩ : ∃ rest, value = c :: rest := by
    cases value with
    | nil => exact absurd rfl hne
    | cons v0 rest =>
      exact ⟨rest, by rw [show v0 = c from Option.some.inj (by simpa using hhead)]⟩
  simp only [NewIntRange]
  rw [if_neg hne, htrim]
  rw [if_neg (show ¬((c :: rest).head? = some '=') by
      rcases hc with rfl | rfl <;> simp)]
  rw [if_neg (show ¬((c :: rest).take 2 = ['>', '=']) by
      rcases hc with rfl | rfl <;> simp [List.take_succ_cons])]
  rw [if_neg (show ¬((c :: rest).head? = some '>') by
      rcases hc with rfl | rfl <;> simp)]
  rw [if_neg (show ¬((c :: rest).take 2 = ['<', '=']) by
      rcases hc with rfl | rfl <;> simp [List.take_succ_cons])]
  rw [if_neg (show ¬((c :: rest).head? = some '<') by
      rcases hc with rfl | rfl <;> simp)]
  rw [if_pos (show (2 : Nat) ≤ (c :: rest).length ∧
      ((c :: rest).head? = some '(' ∨ (c :: rest).head? = some '[') ∧
      ((c :: rest).getLast? = some ')' ∨ (c :: rest).getLast? = some ']') from
    ⟨hlen, hc.elim (fun h => by subst h; exact Or.inl rfl)
      (fun h => by subst h; exact Or.inr rfl),
      hd.elim (fun h => by subst h; exact Or.inl hlast)
      (fun h => by subst h; exact Or.inr hlast)⟩)]

theorem parseIntervalBody_eval {s : Str} {lc rc : Char} (a b : Int)
    (hhead : s.head? = some lc) (hlast : s.getLast? = some rc)
    (hinner : trimSpace ((s.drop 1).dropLast) = intToChars a ++ [','] ++ intToChars b) :
    parseIntervalBody s ⟨0, false, 0, false, true, true⟩ =
      (if a > b then .error .emptyMinGtMax
       else if decide (a = b) && (!(decide (lc = '[')) || !(decide (rc = ']'))) then
         .error .emptyEqualBounds
       else .ok ⟨a, decide (lc = '['), b, decide (rc = ']'), false, false⟩) := by
  simp only [parseIntervalBody]
  rw [hhead, hlast, hinner, splitN2Comma_bracket a b]
  simp only [trimSpace_intToChars]
  rw [if_neg (intToChars_ne_nil a), goAtoi_intToChars a]
  dsimp only
  rw [if_neg (intToChars_ne_nil b), goAtoi_intToChars b]
  dsimp only
  simp

/-- C10: for every integer N the literal `(N,N+1)` (both ends exclusive,
bounds one apart) parses successfully, yet the returned range is empty:
`IsValid` is false and `Contains` rejects every integer — the parse-time
validation rejects min>max and equal-bounds-not-both-inclusive but not
this shape. -/
theorem parse_accepts_empty_adjacent_exclusive (N : Int) :
    NewIntRange ('(' :: intToChars N ++ [','] ++ intToChars (N + 1) ++ [')']) false =
      .ok ⟨N, false, N + 1, false, false, false⟩ ∧
    IntRange.IsValid ⟨N, false, N + 1, false, false, false⟩ = false ∧
    ∀ n : Int, IntRange.Contains ⟨N, false, N + 1, false, false, false⟩ n = false := by
  have hvalid : IntRange.IsValid ⟨N, false, N + 1, false, false, false⟩ = false := by
    simp only [IntRange.IsValid]
    split_ifs with h1 h2 h3 h4 h5 <;> first | rfl | omega | simp_all
  refine ⟨?_, hvalid, ?_⟩
  · rw [newIntRange_interval_branch (c := '(') (d := ')') (by simp)
      (trimSpace_eq_self (no_space_bracket (by decide) (by decide) N (N + 1)))
      (by rfl) (Or.inl rfl)
      (by simp; omega)
      (getLast_bracket '(' ')' N (N + 1)) (Or.inl rfl)]
    rw [parseIntervalBody_eval N (N + 1) (by rfl) (getLast_bracket '(' ')' N (N + 1))
      (by rw [dropLast_bracket]
          exact trimSpace_eq_self (fun x hx => by
            rcases List.mem_append.mp hx with hx | hx
            · rcases List.mem_append.mp hx with hx | hx
              · exact not_space_of_mem_intToChars hx
              · have := List.mem_singleton.mp hx
                subst this
                decide
            · exact not_space_of_mem_intToChars hx))]
    rw [if_neg (by omega), if_neg (by simp)]
    simp
  · intro n
    simp [IntRange.Contains, hvalid]

theorem length_insertStr (x : Str) (l : List Str) :
    (insertStr x l).length = l.length + 1 := by
  induction l with
  | nil => rfl
  | cons y ys ih =>
    rw [insertStr]
    split
    · rfl
    · rw [List.length_cons, ih]
      rfl

theorem length_sortStrings (l : List Str) : (sortStrings l).length = l.length := by
  induction l with
  | nil => rfl
  | cons x xs ih =>
    rw [sortStrings, length_insertStr, ih]
    rfl

theorem mem_insertStr {y x : Str} {l : List Str} :
    y ∈ insertStr x l ↔ y = x ∨ y ∈ l := by
  induction l with
  | nil => simp [insertStr]
  | cons z zs ih =>
    rw [insertStr]
    split
    · simp [List.mem_cons]
    · simp only [List.mem_cons, ih]
      tauto

theorem mem_sortStrings {y : Str} {l : List Str} : y ∈ sortStrings l ↔ y ∈ l := by
  induction l with
  | nil => simp [sortStrings]
  | cons x xs ih =>
    rw [sortStrings, mem_insertStr, ih, List.mem_cons]

theorem strLess_asymm : ∀ {a b : Str}, strLess a b = true → strLess b a = false := by
  intro a
  induction a with
  | nil =>
    intro b h
    cases b with
    | nil => exact absurd h (by rw [strLess]; simp)
    | cons y ys => rw [strLess]
  | cons x xs ih =>
    intro b h
    cases b with
    | nil => exact absurd h (by rw [strLess]; simp)
    | cons y ys =>
      by_cases h1 : x.toNat < y.toNat
      · rw [strLess, if_neg (show ¬y.toNat < x.toNat by omega), if_pos h1]
      · by_cases h2 : y.toNat < x.toNat
        · rw [strLess, if_neg h1, if_pos h2] at h
          exact absurd h (by simp)
        · rw [strLess, if_neg h1, if_neg h2] at h
          rw [strLess, if_neg h2, if_neg h1]
          exact ih h

theorem chain'_insertStr {x : Str} {l : List Str}
    (h : List.Chain' (fun a b => strLess b a = false) l) :
    List.Chain' (fun a b => strLess b a = false) (insertStr x l) := by
  induction l with
  | nil => simp [insertStr]
  | cons y ys ih =>
    rw [insertStr]
    split
    · rename_i hxy
      exact List.Chain'.cons (strLess_asymm hxy) h
    · rename_i hxy
      have hyx : strLess x y = false := Bool.eq_false_iff.mpr hxy
      have htail := ih (List.Chain'.tail h)
      cases ys with
      | nil => exact List.Chain'.cons hyx (by simp [insertStr])
      | cons z zs =>
        by_cases hxz : strLess x z = true
        · rw [insertStr, if_pos hxz] at htail ⊢
          exact List.Chain'.cons hyx htail
        · rw [insertStr, if_neg hxz] at htail ⊢
          exact List.Chain'.cons (List.chain'_cons.mp h).1 htail

theorem chain'_sortStrings (l : List Str) :
    List.Chain' (fun a b => strLess b a = false) (sortStrings l) := by
  induction l with
  | nil => simp [sortStrings]
  | cons x xs ih => exact chain'_insertStr ih

/-- The statement line the cmd export emits for one key (empty when the
key is absent, nil, or fails to serialize — cases the theorem's
hypotheses exclude). -/
def lineOfCmd (jc : JsonCodec) (spec : CmdSpec) (key : Str) : Str :=
  match lookupFlag spec.Flags key with
  | some (some fs) =>
    (match outputMultiValues jc fs.MultiFormat fs.Value with
     | .ok val =>
        (let varName := calcEnvName fs key spec.EnvPrefix
        let escaped := buildCmdLiteral val
        if fs.Export then "setx ".data ++ varName ++ [' ', '"'] ++ escaped ++ ['"']
        else "set \"".data ++ varName ++ ['='] ++ trimChar escaped '"' ++ ['"'])
     | .error _ => [])
  | _ => []

/-- The statement line the POSIX export emits for one key. -/
def lineOfLinux (jc : JsonCodec) (spec : CmdSpec) (key : Str) : Str :=
  match lookupFlag spec.Flags key with
  | some (some fs) =>
    (match outputMultiValues jc fs.MultiFormat fs.Value with
     | .ok val =>
        (let varName := calcEnvName fs key spec.EnvPrefix
        let quoted := buildShellLiteral val
        if fs.Export then "export ".data ++ varName ++ ['='] ++ quoted
        else varName ++ ['='] ++ quoted)
     | .error _ => [])
  | _ => []

/-- The statement line the PowerShell export emits for one key. -/
def lineOfPowershell (jc : JsonCodec) (spec : CmdSpec) (key : Str) : Str :=
  match lookupFlag spec.Flags key with
  | some (some fs) =>
    (match outputMultiValues jc fs.MultiFormat fs.Value with
     | .ok val =>
        (let varName := calcEnvName fs key spec.EnvPrefix
        let escaped := buildPowershellLiteral val
        if fs.Export then "[System.Environment]::SetEnvironmentVariable(".data ++
            escapeForPS varName ++ [','] ++ escaped ++ ",'User')".data
        else "$Env:".data ++ varName ++ " = ".data ++ escaped)
     | .error _ => [])
  | _ => []

/-- The keys whose lookups succeed with a non-nil flag that serializes. -/
def GoodKey (jc : JsonCodec) (spec : CmdSpec) (k : Str) : Prop :=
  ∃ fs, lookupFlag spec.Flags k = some (some fs) ∧
    (outputMultiValues jc fs.MultiFormat fs.Value).isOk = true

theorem cmdLikeLoop_ok (jc : JsonCodec) (spec : CmdSpec) (ks : List Str)
    (h : ∀ k ∈ ks, GoodKey jc spec k) :
    cmdLikeLoop jc spec ks = .ok (ks.map (lineOfCmd jc spec)) := by
  induction ks with
  | nil => rfl
  | cons k ks ih =>
    obtain ⟨fs, hlk, hok⟩ := h k (List.mem_cons_self k ks)
    obtain ⟨val, hval⟩ : ∃ val, outputMultiValues jc fs.MultiFormat fs.Value = .ok val := by
      cases hv : outputMultiValues jc fs.MultiFormat fs.Value with
      | ok v => exact ⟨v, rfl⟩
      | error e =>
        rw [hv] at hok
        exact absurd hok (by simp [Except.isOk, Except.toBool])
    rw [List.map_cons, cmdLikeLoop, hlk]
    dsimp only
    rw [hval]
    dsimp only
    rw [ih (fun x hx => h x (List.mem_cons_of_mem k hx))]
    rw [lineOfCmd, hlk]
    dsimp only
    rw [hval]
    rfl

theorem linuxLikeLoop_ok (jc : JsonCodec) (spec : CmdSpec) (ks : List Str)
    (h : ∀ k ∈ ks, GoodKey jc spec k) :
    linuxLikeLoop jc spec ks = .ok (ks.map (lineOfLinux jc spec)) := by
  induction ks with
  | nil => rfl
  | cons k ks ih =>
    obtain ⟨fs, hlk, hok⟩ := h k (List.mem_cons_self k ks)
    obtain ⟨val, hval⟩ : ∃ val, outputMultiValues jc fs.MultiFormat fs.Value = .ok val := by
      cases hv : outputMultiValues jc fs.MultiFormat fs.Value with
      | ok v => exact ⟨v, rfl⟩
      | error e =>
        rw [hv] at hok
        exact absurd hok (by simp [Except.isOk, Except.toBool])
    rw [List.map_cons, linuxLikeLoop, hlk]
    dsimp only
    rw [hval]
    dsimp only
    rw [ih (fun x hx => h x (List.mem_cons_of_mem k hx))]
    rw [lineOfLinux, hlk]
    dsimp only
    rw [hval]
    rfl

theorem powershellLikeLoop_ok (jc : JsonCodec) (spec : CmdSpec) (ks : List Str)
    (h : ∀ k ∈ ks, GoodKey jc spec k) :
    powershellLikeLoop jc spec ks = .ok (ks.map (lineOfPowershell jc spec)) := by
  induction ks with
  | nil => rfl
  | cons k ks ih =>
    obtain ⟨fs, hlk, hok⟩ := h k (List.mem_cons_self k ks)
    obtain ⟨val, hval⟩ : ∃ val, outputMultiValues jc fs.MultiFormat fs.Value = .ok val := by
      cases hv : outputMultiValues jc fs.MultiFormat fs.Value with
      | ok v => exact ⟨v, rfl⟩
      | error e =>
        rw [hv] at hok
        exact absurd hok (by simp [Except.isOk, Except.toBool])
    rw [List.map_cons, powershellLikeLoop, hlk]
    dsimp only
    rw [hval]
    dsimp only
    rw [ih (fun x hx => h x (List.mem_cons_of_mem k hx))]
    rw [lineOfPowershell, hlk]
    dsimp only
    rw [hval]
    rfl

theorem lookupFlag_mem {flags : List (Str × Option FlagSpec)} {k : Str}
    (h : k ∈ flags.map Prod.fst) : ∃ v, lookupFlag flags k = some v ∧ (k, v) ∈ flags := by
  induction flags with
  | nil => simp at h
  | cons p ps ih =>
    by_cases hk : p.1 = k
    · refine ⟨p.2, by rw [lookupFlag, if_pos hk], ?_⟩
      subst hk
      simp
    · rcases List.mem_cons.mp (List.map_cons _ p ps ▸ h) with h1 | h1
      · exact absurd h1.symm hk
      · obtain ⟨v, hv, hmem⟩ := ih h1
        exact ⟨v, by rw [lookupFlag, if_neg hk]; exact hv, List.mem_cons_of_mem p hmem⟩

/-- C9: when every flag-map entry is non-nil and every per-flag
serialization succeeds, each dialect's export emits exactly one statement
line per declared flag (the lines are the per-key statement lines over the
lexicographically sorted key list, whose length equals the number of
flags), and the lines are joined with CRLF for cmd and LF for POSIX and
PowerShell; the key order is sorted by the byte-wise string order. -/
theorem export_lines_sorted (jc : JsonCodec) (spec : CmdSpec)
    (hsome : ∀ p ∈ spec.Flags, p.2.isSome = true)
    (hok : ∀ p ∈ spec.Flags, ∀ fs, p.2 = some fs →
      (outputMultiValues jc fs.MultiFormat fs.Value).isOk = true) :
    exportEnvVarCmdLike jc spec = .ok (joinSep ['\r', '\n']
      ((sortStrings (spec.Flags.map Prod.fst)).map (lineOfCmd jc spec))) ∧
    exportEnvVarLinuxLike jc spec = .ok (joinSep ['\n']
      ((sortStrings (spec.Flags.map Prod.fst)).map (lineOfLinux jc spec))) ∧
    exportEnvVarPowershellLike jc spec = .ok (joinSep ['\n']
      ((sortStrings (spec.Flags.map Prod.fst)).map (lineOfPowershell jc spec))) ∧
    (sortStrings (spec.Flags.map Prod.fst)).length = spec.Flags.length ∧
    List.Chain' (fun a b => strLess b a = false)
      (sortStrings (spec.Flags.map Prod.fst)) := by
  have hgood : ∀ k ∈ sortStrings (spec.Flags.map Prod.fst), GoodKey jc spec k := by
    intro k hk
    obtain ⟨v, hv, hmem⟩ := lookupFlag_mem (mem_sortStrings.mp hk)
    have hvs := hsome _ hmem
    obtain ⟨fs, rfl⟩ : ∃ fs, v = some fs := by
      cases v with
      | none => exact absurd hvs (by simp)
      | some fs => exact ⟨fs, rfl⟩
    exact ⟨fs, hv, hok _ hmem fs rfl⟩
  refine ⟨?_, ?_, ?_, by rw [length_sortStrings, List.length_map], chain'_sortStrings _⟩
  · rw [exportEnvVarCmdLike]
    by_cases hf : spec.Flags = []
    · rw [if_pos hf, hf]
      rfl
    · rw [if_neg hf, cmdLikeLoop_ok jc spec _ hgood]
  · rw [exportEnvVarLinuxLike]
    by_cases hf : spec.Flags = []
    · rw [if_pos hf, hf]
      rfl
    · rw [if_neg hf, linuxLikeLoop_ok jc spec _ hgood]
  · rw [exportEnvVarPowershellLike]
    by_cases hf : spec.Flags = []
    · rw [if_pos hf, hf]
      rfl
    · rw [if_neg hf, powershellLikeLoop_ok jc spec _ hgood]

/-- Witness for C9: two flags declared as `b` then `a` are exported in
sorted order `a`, `b` with LF-joined POSIX assignment lines. -/
theorem export_lines_sorted_witness :
    exportEnvVarLinuxLike ⟨fun _ => none, fun _ => none, fun _ => none⟩
      ⟨"P".data, [("b".data, some ⟨[], [], false, ["2".data]⟩),
        ("a".data, some ⟨[], [], false, ["1".data]⟩)]⟩ =
      .ok "PA='1'\nPB='2'".data := by
  have h := (export_lines_sorted ⟨fun _ => none, fun _ => none, fun _ => none⟩
    ⟨"P".data, [("b".data, some ⟨[], [], false, ["2".data]⟩),
      ("a".data, some ⟨[], [], false, ["1".data]⟩)]⟩
    (by decide)
    (by
      intro p hp fs hfs
      rcases List.mem_cons.mp hp with rfl | hp
      · cases Option.some.inj hfs
        decide
      rcases List.mem_cons.mp hp with rfl | hp
      · cases Option.some.inj hfs
        decide
      · simp at hp)).2.1
  rw [h]
  rfl

/-- Non-empty all-digit strings: the raw material of well-formed filter
tokens. -/
def digitsOnly (ds : Str) : Prop := ds ≠ [] ∧ ds.all isDigitChar = true

/-- The four plain token shapes of the `NaturalRangeFilter` grammar:
`N`, `N-M`, `N-`, `-M`, each over digit strings. -/
inductive FilterToken where
  | single (ds : Str)
  | pair (ds1 ds2 : Str)
  | lower (ds : Str)
  | upper (ds : Str)

/-- The literal text of a token. -/
def FilterToken.render : FilterToken → Str
  | .single ds => ds
  | .pair a b => a ++ '-' :: b
  | .lower ds => ds ++ ['-']
  | .upper ds => '-' :: ds

/-- The numeric values a token emits, left to right. -/
def FilterToken.nums : FilterToken → List Nat
  | .single ds => [digitsVal ds]
  | .pair a b => [digitsVal a, digitsVal b]
  | .lower ds => [digitsVal ds]
  | .upper ds => [digitsVal ds]

/-- Well-formedness of a token: digit strings non-empty; a closed pair
additionally requires its left value not to exceed its right value. -/
def FilterToken.WF : FilterToken → Prop
  | .single ds => digitsOnly ds
  | .pair a b => digitsOnly a ∧ digitsOnly b ∧ digitsVal a ≤ digitsVal b
  | .lower ds => digitsOnly ds
  | .upper ds => digitsOnly ds

theorem parseNaturalNumber_digits {ds : Str} (h : digitsOnly ds) :
    parseNaturalNumber ds = some (digitsVal ds) := by
  obtain ⟨hne, hall⟩ := h
  cases ds with
  | nil => exact absurd rfl hne
  | cons c rest =>
    have hc : isDigitChar c = true :=
      List.all_eq_true.mp hall c (List.mem_cons_self c rest)
    simp only [parseNaturalNumber, goAtoi]
    rw [if_neg (digit_ne hc (by decide : isDigitChar '-' = false)),
      if_neg (digit_ne hc (by decide : isDigitChar '+' = false)), if_pos hall]
    simp

theorem no_dash_of_digits {ds : Str} (h : ds.all isDigitChar = true) :
    ∀ c ∈ ds, ¬(c = '-') :=
  fun c hc => digit_ne (List.all_eq_true.mp h c hc) (by decide)

theorem count_dash_digits {ds : Str} (h : ds.all isDigitChar = true) :
    ds.count '-' = 0 :=
  List.count_eq_zero.mpr (fun hmem => no_dash_of_digits h '-' hmem rfl)

theorem no_space_of_digits {ds : Str} (h : ds.all isDigitChar = true) :
    ∀ c ∈ ds, isSpaceChar c = false :=
  fun c hc => digit_not_space (List.all_eq_true.mp h c hc)

theorem splitOnSep_ne_nil (sep : Char) (l : Str) : splitOnSep sep l ≠ [] := by
  cases l with
  | nil => simp [splitOnSep]
  | cons c cs =>
    rw [splitOnSep]
    rcases hs : splitOnSep sep cs with _ | ⟨a, t⟩
    · simp
    · dsimp only
      split
      · simp
      · simp

theorem splitOnSep_no_sep {sep : Char} {l : Str} (h : sep ∉ l) :
    splitOnSep sep l = [l] := by
  induction l with
  | nil => rfl
  | cons c cs ih =>
    have hcs : ¬(c = sep) := fun hc => h (by rw [← hc]; exact List.mem_cons_self c cs)
    rw [splitOnSep, ih (fun hm => h (List.mem_cons_of_mem c hm))]
    dsimp only
    rw [if_neg hcs]

theorem splitOnSep_append {sep : Char} {l1 : Str} (h : sep ∉ l1) (l2 : Str) :
    splitOnSep sep (l1 ++ sep :: l2) = l1 :: splitOnSep sep l2 := by
  induction l1 with
  | nil =>
    rw [List.nil_append, splitOnSep]
    rcases hs : splitOnSep sep l2 with _ | ⟨a, t⟩
    · exact absurd hs (splitOnSep_ne_nil sep l2)
    · dsimp only
      rw [if_pos rfl, ← hs]
  | cons c cs ih =>
    have hcs : ¬(c = sep) := fun hc => h (by rw [← hc]; exact List.mem_cons_self c cs)
    rw [List.cons_append, splitOnSep, ih (fun hm => h (List.mem_cons_of_mem c hm))]
    dsimp only
    rw [if_neg hcs]

theorem splitOnSep_join {sep : Char} {parts : List Str} (hne : parts ≠ [])
    (h : ∀ p ∈ parts, sep ∉ p) :
    splitOnSep sep (joinSep [sep] parts) = parts := by
  induction parts with
  | nil => exact absurd rfl hne
  | cons p ps ih =>
    cases ps with
    | nil => exact splitOnSep_no_sep (h p (List.mem_cons_self p []))
    | cons q qs =>
      have hj : joinSep [sep] (p :: q :: qs) = p ++ sep :: joinSep [sep] (q :: qs) := by
        rw [joinSep]
        simp
      rw [hj, splitOnSep_append (h p (List.mem_cons_self p (q :: qs)))]
      rw [ih (by simp) (fun x hx => h x (List.mem_cons_of_mem p hx))]

theorem contains_eq_true_of_mem {α : Type} [BEq α] [LawfulBEq α]
    {l : List α} {a : α} (h : a ∈ l) : l.contains a = true :=
  List.elem_eq_true_of_mem h

theorem tokStep_single {ds : Str} (h : digitsOnly ds) (i prev : Nat)
    (acc : List IntRange) (rest : List Str) :
    filterLoop i prev acc (ds :: rest) =
      (if digitsVal ds < prev then .error (.nonDecreasing (digitsVal ds) prev)
       else filterLoop (i + 1) (digitsVal ds) (acc ++ [NewSingleValueIntRange (digitsVal ds)]) rest) := by
  obtain ⟨hne, hall⟩ := h
  rw [filterLoop, trimSpace_eq_self (no_space_of_digits hall)]
  rw [if_neg hne]
  rw [count_dash_digits hall]
  rw [if_neg (by omega)]
  rw [contains_eq_false_of_not_mem (fun hm => no_dash_of_digits hall '-' hm rfl)]
  rw [if_neg (by simp)]
  rw [parseNaturalNumber_digits ⟨hne, hall⟩]

theorem tokStep_pair {a b : Str} (ha : digitsOnly a) (hb : digitsOnly b)
    (i prev : Nat) (acc : List IntRange) (rest : List Str) :
    filterLoop i prev acc ((a ++ '-' :: b) :: rest) =
      (if digitsVal b < digitsVal a then .error .minGtMax
       else if digitsVal a < prev then .error (.nonDecreasing (digitsVal a) prev)
       else if digitsVal b < prev then .error (.nonDecreasing (digitsVal b) prev)
       else filterLoop (i + 1) (digitsVal b)
         (acc ++ [NewInclusiveIntRange (digitsVal a) (digitsVal b)]) rest) := by
  have hsp : ∀ c ∈ a ++ '-' :: b, isSpaceChar c = false := by
    intro c hc
    rcases List.mem_append.mp hc with hc | hc
    · exact no_space_of_digits ha.2 c hc
    rcases List.mem_cons.mp hc with rfl | hc
    · decide
    · exact no_space_of_digits hb.2 c hc
  have hadash : ∀ c ∈ a, (fun x => decide (x ≠ '-')) c = true := by
    intro c hc
    simp [no_dash_of_digits ha.2 c hc]
  rw [filterLoop, trimSpace_eq_self hsp]
  rw [if_neg (by simp [ha.1])]
  rw [List.count_append, count_dash_digits ha.2, List.count_cons_self,
    count_dash_digits hb.2]
  rw [if_neg (by omega)]
  rw [contains_eq_true_of_mem (by
    refine List.mem_append.mpr (Or.inr ?_)
    exact List.mem_cons_self '-' b)]
  rw [if_pos rfl]
  rw [takeWhile_append_all hadash, dropWhile_append_all hadash]
  have htw : ('-' :: b).takeWhile (fun x => decide (x ≠ '-')) = [] := by
    rw [List.takeWhile_cons]
    simp
  have hdw : ('-' :: b).dropWhile (fun x => decide (x ≠ '-')) = '-' :: b := by
    rw [List.dropWhile_cons]
    simp
  rw [htw, hdw, List.append_nil]
  rw [if_neg (by rintro ⟨h1, -⟩; exact ha.1 h1)]
  rw [if_pos ⟨ha.1, hb.1⟩]
  rw [parseNaturalNumber_digits ha]
  dsimp only [List.tail_cons]
  rw [parseNaturalNumber_digits hb]

theorem tokStep_lower {ds : Str} (h : digitsOnly ds) (i prev : Nat)
    (acc : List IntRange) (rest : List Str) :
    filterLoop i prev acc ((ds ++ ['-']) :: rest) =
      (if digitsVal ds < prev then .error (.nonDecreasing (digitsVal ds) prev)
       else filterLoop (i + 1) (digitsVal ds)
         (acc ++ [NewGreaterOrEqualThanIntRange (digitsVal ds)]) rest) := by
  have hsp : ∀ c ∈ ds ++ ['-'], isSpaceChar c = false := by
    intro c hc
    rcases List.mem_append.mp hc with hc | hc
    · exact no_space_of_digits h.2 c hc
    · rw [List.mem_singleton.mp hc]
      decide
  have hadash : ∀ c ∈ ds, (fun x => decide (x ≠ '-')) c = true := by
    intro c hc
    simp [no_dash_of_digits h.2 c hc]
  rw [filterLoop, trimSpace_eq_self hsp]
  rw [if_neg (by simp [h.1])]
  rw [List.count_append, count_dash_digits h.2]
  rw [if_neg (by simp)]
  rw [contains_eq_true_of_mem (List.mem_append.mpr (Or.inr (List.mem_singleton.mpr rfl)))]
  rw [if_pos rfl]
  rw [takeWhile_append_all hadash, dropWhile_append_all hadash]
  have htw : (['-'] : Str).takeWhile (fun x => decide (x ≠ '-')) = [] := by decide
  have hdw : (['-'] : Str).dropWhile (fun x => decide (x ≠ '-')) = ['-'] := by decide
  rw [htw, hdw, List.append_nil]
  rw [if_neg (by rintro ⟨h1, -⟩; exact h.1 h1)]
  rw [if_neg (by rintro ⟨-, h2⟩; exact h2 rfl)]
  rw [if_pos h.1]
  rw [parseNaturalNumber_digits h]

theorem tokStep_upper {ds : Str} (h : digitsOnly ds) (i prev : Nat)
    (acc : List IntRange) (rest : List Str) :
    filterLoop i prev acc (('-' :: ds) :: rest) =
      (if digitsVal ds < prev then .error (.nonDecreasing (digitsVal ds) prev)
       else filterLoop (i + 1) (digitsVal ds)
         (acc ++ [NewLessOrEqualThanIntRange (digitsVal ds)]) rest) := by
  have hsp : ∀ c ∈ '-' :: ds, isSpaceChar c = false := by
    intro c hc
    rcases List.mem_cons.mp hc with rfl | hc
    · decide
    · exact no_space_of_digits h.2 c hc
  rw [filterLoop, trimSpace_eq_self hsp]
  rw [if_neg (by simp)]
  rw [List.count_cons_self, count_dash_digits h.2]
  rw [if_neg (by omega)]
  rw [contains_eq_true_of_mem (List.mem_cons_self '-' ds)]
  rw [if_pos rfl]
  have htw : ('-' :: ds).takeWhile (fun x => decide (x ≠ '-')) = [] := by
    rw [List.takeWhile_cons]
    simp
  have hdw : ('-' :: ds).dropWhile (fun x => decide (x ≠ '-')) = '-' :: ds := by
    rw [List.dropWhile_cons]
    simp
  rw [htw, hdw]
  rw [if_neg (by rintro ⟨-, h2⟩; exact h.1 h2)]
  rw [if_neg (by rintro ⟨h1, -⟩; exact h1 rfl)]
  rw [if_neg (by intro h1; exact h1 rfl)]
  dsimp only [List.tail_cons]
  rw [parseNaturalNumber_digits h]

theorem isOk_error {ε α : Type} (e : ε) : (Except.error e : Except ε α).isOk = false := rfl

theorem isOk_ok {ε α : Type} (a : α) : (Except.ok a : Except ε α).isOk = true := rfl

theorem filterLoop_iff (toks : List FilterToken) (hwf : ∀ t ∈ toks, t.WF) :
    ∀ prev i acc, ((filterLoop i prev acc (toks.map FilterToken.render)).isOk = true ↔
      List.Chain' (fun x y => x ≤ y) (prev :: toks.flatMap FilterToken.nums)) := by
  induction toks with
  | nil =>
    intro prev i acc
    simp [filterLoop, isOk_ok]
  | cons t ts ih =>
    intro prev i acc
    have hwft := hwf t (List.mem_cons_self t ts)
    have ihs := ih (fun x hx => hwf x (List.mem_cons_of_mem t hx))
    cases t with
    | single ds =>
      rw [List.map_cons, FilterToken.render, tokStep_single hwft]
      simp only [List.flatMap_cons, FilterToken.nums, List.singleton_append]
      by_cases hlt : digitsVal ds < prev
      · rw [if_pos hlt]
        constructor
        · intro h
          exact absurd h (by rw [isOk_error]; simp)
        · intro h
          exact absurd (List.chain'_cons.mp h).1 (by omega)
      · rw [if_neg hlt, ihs]
        rw [List.chain'_cons]
        exact ⟨fun h => ⟨Nat.le_of_not_lt hlt, h⟩, fun h => h.2⟩
    | pair a b =>
      obtain ⟨ha, hb, hab⟩ := hwft
      rw [List.map_cons, FilterToken.render, tokStep_pair ha hb]
      simp only [List.flatMap_cons, FilterToken.nums]
      rw [if_neg (by omega)]
      by_cases hlt : digitsVal a < prev
      · rw [if_pos hlt]
        constructor
        · intro h
          exact absurd h (by rw [isOk_error]; simp)
        · intro h
          exact absurd (List.chain'_cons.mp h).1 (by omega)
      · rw [if_neg hlt, if_neg (by omega), ihs]
        rw [List.cons_append, List.singleton_append, List.chain'_cons, List.chain'_cons]
        constructor
        · intro h
          exact ⟨Nat.le_of_not_lt hlt, hab, h⟩
        · intro h
          exact h.2.2
    | lower ds =>
      rw [List.map_cons, FilterToken.render, tokStep_lower hwft]
      simp only [List.flatMap_cons, FilterToken.nums, List.singleton_append]
      by_cases hlt : digitsVal ds < prev
      · rw [if_pos hlt]
        constructor
        · intro h
          exact absurd h (by rw [isOk_error]; simp)
        · intro h
          exact absurd (List.chain'_cons.mp h).1 (by omega)
      · rw [if_neg hlt, ihs]
        rw [List.chain'_cons]
        exact ⟨fun h => ⟨Nat.le_of_not_lt hlt, h⟩, fun h => h.2⟩
    | upper ds =>
      rw [List.map_cons, FilterToken.render, tokStep_upper hwft]
      simp only [List.flatMap_cons, FilterToken.nums, List.singleton_append]
      by_cases hlt : digitsVal ds < prev
      · rw [if_pos hlt]
        constructor
        · intro h
          exact absurd h (by rw [isOk_error]; simp)
        · intro h
          exact absurd (List.chain'_cons.mp h).1 (by omega)
      · rw [if_neg hlt, ihs]
        rw [List.chain'_cons]
        exact ⟨fun h => ⟨Nat.le_of_not_lt hlt, h⟩, fun h => h.2⟩

theorem render_ne_nil {t : FilterToken} (h : t.WF) : t.render ≠ [] := by
  cases t with
  | single ds => exact h.1
  | pair a b =>
    rw [FilterToken.render]
    simp
  | lower ds =>
    rw [FilterToken.render]
    simp
  | upper ds =>
    rw [FilterToken.render]
    simp

theorem render_chars {t : FilterToken} (h : t.WF) :
    ∀ c ∈ t.render, c = '-' ∨ isDigitChar c = true := by
  cases t with
  | single ds =>
    intro c hc
    exact Or.inr (List.all_eq_true.mp h.2 c hc)
  | pair a b =>
    intro c hc
    rw [FilterToken.render] at hc
    rcases List.mem_append.mp hc with hc | hc
    · exact Or.inr (List.all_eq_true.mp h.1.2 c hc)
    rcases List.mem_cons.mp hc with rfl | hc
    · exact Or.inl rfl
    · exact Or.inr (List.all_eq_true.mp h.2.1.2 c hc)
  | lower ds =>
    intro c hc
    rw [FilterToken.render] at hc
    rcases List.mem_append.mp hc with hc | hc
    · exact Or.inr (List.all_eq_true.mp h.2 c hc)
    · exact Or.inl (List.mem_singleton.mp hc)
  | upper ds =>
    intro c hc
    rw [FilterToken.render] at hc
    rcases List.mem_cons.mp hc with rfl | hc
    · exact Or.inl rfl
    · exact Or.inr (List.all_eq_true.mp h.2 c hc)

theorem mem_joinSep {sep : Char} {parts : List Str} {c : Char}
    (h : c ∈ joinSep [sep] parts) : c = sep ∨ ∃ p ∈ parts, c ∈ p := by
  induction parts with
  | nil => simp [joinSep] at h
  | cons p ps ih =>
    cases ps with
    | nil =>
      right
      exact ⟨p, List.mem_cons_self p [], h⟩
    | cons q qs =>
      rw [joinSep] at h
      rcases (by simpa using h : c ∈ p ∨ c = sep ∨ c ∈ joinSep [sep] (q :: qs)) with
        hc | rfl | hc
      · exact Or.inr ⟨p, List.mem_cons_self p (q :: qs), hc⟩
      · exact Or.inl rfl
      · rcases ih hc with h1 | ⟨r, hr, hcr⟩
        · exact Or.inl h1
        · exact Or.inr ⟨r, List.mem_cons_of_mem p hr, hcr⟩

theorem joinSep_cons_ne_nil {sep : Char} {p : Str} {ps : List Str} (hp : p ≠ []) :
    joinSep [sep] (p :: ps) ≠ [] := by
  cases ps with
  | nil => exact hp
  | cons q qs =>
    rw [joinSep]
    simp

/-- C5: over token strings built from well-formed plain tokens `N`, `N-M`
(with N ≤ M), `N-`, `-M`, `NewNaturalRangeFilter` succeeds exactly when
the numbers emitted left-to-right are non-decreasing; in particular
`1_3-5_7-7` parses and `3_1-4` fails with the error naming the offending
pair 1 < 3. -/
theorem filter_token_nondecreasing :
    (∀ toks : List FilterToken, (∀ t ∈ toks, t.WF) →
      ((NewNaturalRangeFilter (joinSep ['_'] (toks.map FilterToken.render))).isOk = true ↔
        List.Chain' (fun x y => x ≤ y) (toks.flatMap FilterToken.nums))) ∧
    (NewNaturalRangeFilter "1_3-5_7-7".data).isOk = true ∧
    NewNaturalRangeFilter "3_1-4".data = .error (.nonDecreasing 1 3) := by
  refine ⟨?_, rfl, rfl⟩
  intro toks hwf
  rcases toks with _ | ⟨t, ts⟩
  · rw [List.map_nil]
    constructor
    · intro _
      simp
    · intro _
      rfl
  · have hwft := hwf t (List.mem_cons_self t ts)
    have hchars : ∀ c ∈ joinSep ['_'] ((t :: ts).map FilterToken.render),
        c = '_' ∨ c = '-' ∨ isDigitChar c = true := by
      intro c hc
      rcases mem_joinSep hc with rfl | ⟨p, hp, hcp⟩
      · exact Or.inl rfl
      · obtain ⟨u, hu, rfl⟩ := List.mem_map.mp hp
        rcases render_chars (hwf u hu) c hcp with h1 | h1
        · exact Or.inr (Or.inl h1)
        · exact Or.inr (Or.inr h1)
    have hvne : joinSep ['_'] ((t :: ts).map FilterToken.render) ≠ [] := by
      rw [List.map_cons]
      exact joinSep_cons_ne_nil (render_ne_nil hwft)
    have hvnall : joinSep ['_'] ((t :: ts).map FilterToken.render) ≠ ['a', 'l', 'l'] := by
      intro hv
      have hmem : 'a' ∈ joinSep ['_'] ((t :: ts).map FilterToken.render) := by
        rw [hv]
        exact List.mem_cons_self 'a' ['l', 'l']
      rcases hchars 'a' hmem with h1 | h1 | h1 <;> revert h1 <;> decide
    have htrim : trimSpace (joinSep ['_'] ((t :: ts).map FilterToken.render)) =
        joinSep ['_'] ((t :: ts).map FilterToken.render) := by
      apply trimSpace_eq_self
      intro c hc
      rcases hchars c hc with rfl | rfl | h1
      · decide
      · decide
      · exact digit_not_space h1
    have hsplit : splitOnSep '_' (joinSep ['_'] ((t :: ts).map FilterToken.render)) =
        (t :: ts).map FilterToken.render := by
      apply splitOnSep_join (by simp)
      intro p hp hmem
      obtain ⟨u, hu, rfl⟩ := List.mem_map.mp hp
      rcases render_chars (hwf u hu) '_' hmem with h1 | h1 <;> revert h1 <;> decide
    rw [NewNaturalRangeFilter]
    rw [htrim, if_neg hvne, if_neg hvnall, hsplit]
    rw [filterLoop_iff (t :: ts) hwf 0 0 []]
    rcases hfm : (t :: ts).flatMap FilterToken.nums with _ | ⟨n, ns⟩
    · constructor
      · intro _
        simp
      · intro _
        simp
    · rw [List.chain'_cons]
      exact ⟨fun h => h.2, fun h => ⟨Nat.zero_le n, h⟩⟩

/-- Witness for C5 at the token list for `2_4-4`: the emitted numbers
2, 4, 4 are non-decreasing, so parsing succeeds. -/
theorem filter_token_nondecreasing_witness :
    (NewNaturalRangeFilter "2_4-4".data).isOk = true := by
  have h := (filter_token_nondecreasing.1
    [FilterToken.single ['2'], FilterToken.pair ['4'] ['4']]
    (by
      intro t ht
      rcases List.mem_cons.mp ht with rfl | ht
      · exact ⟨by simp, by decide⟩
      rcases List.mem_cons.mp ht with rfl | ht
      · exact ⟨⟨by simp, by decide⟩, ⟨by simp, by decide⟩, by decide⟩
      · simp at ht)).mpr (by
      refine List.chain'_cons.mpr ⟨by decide, List.chain'_cons.mpr ⟨by decide, ?_⟩⟩
      exact List.chain'_singleton _)
  exact h

/-- The invariants every range produced by `NewIntRange` satisfies: an
unbounded side keeps the zero/open defaults, and a doubly bounded range
has min < max or is an inclusive point. -/
def ShapeOK (r : IntRange) : Prop :=
  (r.MinUnbounded = true → r.Min = 0 ∧ r.MinInclude = false) ∧
  (r.MaxUnbounded = true → r.Max = 0 ∧ r.MaxInclude = false) ∧
  (r.MinUnbounded = false → r.MaxUnbounded = false →
    r.Min < r.Max ∨ (r.Min = r.Max ∧ r.MinInclude = true ∧ r.MaxInclude = true))

theorem shape_third {a b : Int} {li ri : Bool}
    (hgt : ¬a > b) (heq : ¬((decide (a = b) && (!li || !ri)) = true)) :
    a < b ∨ (a = b ∧ li = true ∧ ri = true) := by
  by_cases hab : a = b
  · right
    refine ⟨hab, ?_⟩
    subst hab
    cases li <;> cases ri <;> simp_all
  · left
    omega

theorem parseIntervalBody_shape {s : Str} {r : IntRange}
    (h : parseIntervalBody s ⟨0, false, 0, false, true, true⟩ = .ok r) : ShapeOK r := by
  simp only [parseIntervalBody] at h
  split at h
  · exact absurd h (by simp)
  rename_i pq p q heqpq
  split at h
  · exact absurd h (by simp)
  rename_i r1 heq1
  split at h
  · exact absurd h (by simp)
  rename_i r2 heq2
  -- resolve step1
  split at heq1
  · split at heq1
    · exact absurd heq1 (by simp)
    · cases heq1
      -- r1 has the canonical unbounded min side
      split at heq2
      · split at heq2
        · exact absurd heq2 (by simp)
        · cases heq2
          rw [if_neg (by simp)] at h
          cases h
          exact ⟨fun _ => ⟨rfl, rfl⟩, fun _ => ⟨rfl, rfl⟩, fun h1 _ => by simp at h1⟩
      · split at heq2
        · exact absurd heq2 (by simp)
        · cases heq2
          rw [if_neg (by simp)] at h
          cases h
          exact ⟨fun _ => ⟨rfl, rfl⟩, fun hx => by simp at hx, fun h1 _ => by simp at h1⟩
  · split at heq1
    · exact absurd heq1 (by simp)
    · cases heq1
      split at heq2
      · split at heq2
        · exact absurd heq2 (by simp)
        · cases heq2
          rw [if_neg (by simp)] at h
          cases h
          exact ⟨fun hx => by simp at hx, fun _ => ⟨rfl, rfl⟩, fun _ h2 => by simp at h2⟩
      · split at heq2
        · exact absurd heq2 (by simp)
        · cases heq2
          rw [if_pos (by simp)] at h
          split at h
          · exact absurd h (by simp)
          split at h
          · exact absurd h (by simp)
          cases h
          rename_i hgt heqb
          exact ⟨fun hx => by simp at hx, fun hx => by simp at hx,
            fun _ _ => shape_third hgt heqb⟩

theorem shapeOK_unbounded : ShapeOK NewUnboundedIntRange :=
  ⟨fun _ => ⟨rfl, rfl⟩, fun _ => ⟨rfl, rfl⟩, fun h1 _ => absurd h1 (by decide : ¬(true = false))⟩

theorem shapeOK_single (n : Int) : ShapeOK (NewSingleValueIntRange n) :=
  ⟨fun hx => absurd hx Bool.false_ne_true, fun hx => absurd hx Bool.false_ne_true,
    fun _ _ => Or.inr ⟨rfl, rfl, rfl⟩⟩

theorem shapeOK_minRec (n : Int) (inc : Bool) : ShapeOK ⟨n, inc, 0, false, false, true⟩ :=
  ⟨fun hx => absurd hx Bool.false_ne_true, fun _ => ⟨rfl, rfl⟩,
    fun _ h2 => absurd h2 (by decide : ¬(true = false))⟩

theorem shapeOK_maxRec (n : Int) (inc : Bool) : ShapeOK ⟨0, false, n, inc, true, false⟩ :=
  ⟨fun _ => ⟨rfl, rfl⟩, fun hx => absurd hx Bool.false_ne_true,
    fun h1 _ => absurd h1 (by decide : ¬(true = false))⟩

theorem newIntRange_shape {s : Str} {b : Bool} {r : IntRange}
    (h : NewIntRange s b = .ok r) : ShapeOK r := by
  simp only [NewIntRange] at h
  split at h
  · split at h
    · cases h
      exact shapeOK_unbounded
    · exact absurd h (by simp)
  · split at h
    · split at h
      · exact absurd h (by simp)
      · cases h
        exact shapeOK_single _
    split at h
    · split at h
      · exact absurd h (by simp)
      · cases h
        exact shapeOK_minRec _ true
    split at h
    · split at h
      · exact absurd h (by simp)
      · cases h
        exact shapeOK_minRec _ false
    split at h
    · split at h
      · exact absurd h (by simp)
      · cases h
        exact shapeOK_maxRec _ true
    split at h
    · split at h
      · exact absurd h (by simp)
      · cases h
        exact shapeOK_maxRec _ false
    split at h
    · exact parseIntervalBody_shape h
    · split at h
      · exact absurd h (by simp)
      · cases h
        exact shapeOK_single _

theorem newIntRange_roundtrip_of_shape {r : IntRange} (h : ShapeOK r) :
    NewIntRange r.ToParseableString false = .ok r := by
  obtain ⟨mn, mi, mx, ma, mu, xu⟩ := r
  obtain ⟨h1, h2, h3⟩ := h
  dsimp only at h1 h2 h3
  cases mu with
  | true =>
    obtain ⟨hm0, hmi0⟩ := h1 rfl
    subst hm0
    subst hmi0
    cases xu with
    | true =>
      obtain ⟨hx0, hma0⟩ := h2 rfl
      subst hx0
      subst hma0
      rfl
    | false =>
      have hform : IntRange.ToParseableString ⟨0, false, mx, ma, true, false⟩ =
          (if ma then '<' :: '=' :: intToChars mx else '<' :: intToChars mx) := by
        rw [IntRange.ToParseableString, IntRange.format]
        rw [if_neg (by simp), if_pos (by simp)]
      rw [hform]
      cases ma with
      | true =>
        rw [if_pos rfl, newIntRange_le]
      | false =>
        rw [if_neg (by simp), newIntRange_lt]
  | false =>
    cases xu with
    | true =>
      obtain ⟨hx0, hma0⟩ := h2 rfl
      subst hx0
      subst hma0
      have hform : IntRange.ToParseableString ⟨mn, mi, 0, false, false, true⟩ =
          (if mi then '>' :: '=' :: intToChars mn else '>' :: intToChars mn) := by
        rw [IntRange.ToParseableString, IntRange.format]
        rw [if_neg (by simp), if_neg (by simp), if_pos (by simp)]
      rw [hform]
      cases mi with
      | true =>
        rw [if_pos rfl, newIntRange_ge]
      | false =>
        rw [if_neg (by simp), newIntRange_gt]
    | false =>
      rcases h3 rfl rfl with hlt | ⟨heq, hmi, hma⟩
      · have hform : IntRange.ToParseableString ⟨mn, mi, mx, ma, false, false⟩ =
            (if mi then '[' else '(') :: intToChars mn ++ [','] ++ intToChars mx ++
              [if ma then ']' else ')'] := by
          rw [IntRange.ToParseableString, IntRange.format]
          rw [if_neg (by
            intro hcond
            simp at hcond
            omega)]
          rw [if_neg (by simp), if_neg (by simp)]
          cases mi <;> cases ma <;> simp
        rw [hform]
        have hinner : trimSpace ((((if mi then '[' else '(') :: intToChars mn ++ [','] ++
            intToChars mx ++ [if ma then ']' else ')']).drop 1).dropLast) =
            intToChars mn ++ [','] ++ intToChars mx := by
          rw [dropLast_bracket]
          exact trimSpace_eq_self (fun x hx => by
            rcases List.mem_append.mp hx with hx | hx
            · rcases List.mem_append.mp hx with hx | hx
              · exact not_space_of_mem_intToChars hx
              · rw [List.mem_singleton.mp hx]
                decide
            · exact not_space_of_mem_intToChars hx)
        rw [newIntRange_interval_branch (c := if mi then '[' else '(')
          (d := if ma then ']' else ')') (by simp)
          (trimSpace_eq_self (no_space_bracket (by cases mi <;> decide)
            (by cases ma <;> decide) mn mx))
          (by rfl) (by cases mi <;> simp)
          (by simp; omega)
          (getLast_bracket _ _ mn mx) (by cases ma <;> simp)]
        rw [parseIntervalBody_eval mn mx (by rfl) (getLast_bracket _ _ mn mx) hinner]
        rw [if_neg (by omega), if_neg (by simp; omega)]
        cases mi <;> cases ma <;> simp
      · subst heq
        subst hmi
        subst hma
        have hform : IntRange.ToParseableString ⟨mn, true, mn, true, false, false⟩ =
            intToChars mn := by
          rw [IntRange.ToParseableString, IntRange.format]
          rw [if_pos (by simp)]
        rw [hform, newIntRange_plain]
        rfl

/-- C4: any string that `NewIntRange` (with empty-not-unbounded) parses
into a valid range round-trips: parsing the range's
`ToParseableString` rendering succeeds and returns the very same range. -/
theorem intRange_roundtrip (s : Str) (r : IntRange)
    (h : NewIntRange s false = .ok r) (hv : r.IsValid = true) :
    NewIntRange r.ToParseableString false = .ok r :=
  newIntRange_roundtrip_of_shape (newIntRange_shape h)

/-- Witness for C4 at the literal `3`. -/
theorem intRange_roundtrip_witness :
    NewIntRange ((NewSingleValueIntRange 3).ToParseableString) false =
      .ok (NewSingleValueIntRange 3) :=
  intRange_roundtrip ['3'] (NewSingleValueIntRange 3) (by rfl) (by decide)
